import Mathlib

/-!
# Statement parser of the expense tracker

Shallow embedding of `parseRevolutStatement` (backend/handlers/handlers.go) and of the
record type `Expense` (backend/models/models.go).

The parser is two calls of `regexp.FindAllStringSubmatch` followed by `strings.TrimSpace`
and `strings.ReplaceAll` on the capture groups.  The regular expressions are embedded as
abstract syntax trees that follow the two pattern literals of the source token by token,
and they are executed by a backtracking matcher that lists every way a pattern can match at
a position, in the priority order of a backtracking search (left alternative first, greedy
repetition longest first, lazy repetition shortest first).  The first entry of that list
is the leftmost-first match that Go's `regexp` package reports.

Text is a sequence of Unicode code points (a Go string holding valid UTF-8).
Logging (`log.Printf`) is not represented.
-/

namespace ExpenseTracker

/-! ## Data model (models.go) -/

/-- The record type `models.Expense`. -/
structure Expense where
  ID : Int
  Date : String
  Category : String
  Amount : String
  Description : String
deriving DecidableEq

/-! ## Regular expressions -/

/-- Abstract syntax of the regular expressions used by the parser.  Repetition is only
ever applied to a single character class in the two patterns of the source, so `star`
carries a class. -/
inductive Re where
  | eps
  | cls (p : Char → Bool)
  | bol
  | seq (a b : Re)
  | alt (a b : Re)
  | star (greedy : Bool) (p : Char → Bool)
  | group (n : Nat) (a : Re)

/-- Matcher state: the unread input (a suffix of the text being searched) and the text
captured by each group so far. -/
structure St where
  rest : List Char
  caps : Nat → List Char

/-- The assertion `^` under the flag `(?m)`: the position of the unread input `rest` in
`text` is the start of the text or comes just after a line feed. -/
def atLineStart (text rest : List Char) : Bool :=
  match text.length - rest.length with
  | 0 => true
  | k + 1 => text.get? k == some '\n'

/-- All ways `p*` (greedy) or `p*?` (lazy) can match at the current position, in
backtracking priority order. -/
def starRun (greedy : Bool) (p : Char → Bool) (caps : Nat → List Char) :
    List Char → List St
  | [] => [⟨[], caps⟩]
  | c :: cs =>
    if p c then
      if greedy then starRun greedy p caps cs ++ [⟨c :: cs, caps⟩]
      else ⟨c :: cs, caps⟩ :: starRun greedy p caps cs
    else [⟨c :: cs, caps⟩]

/-- All ways a pattern can match at the current position of `text`, in backtracking
priority order (left alternative first).  A group records the text its body consumed. -/
def run (text : List Char) : Re → St → List St
  | .eps, s => [s]
  | .cls p, s =>
    match s.rest with
    | [] => []
    | c :: cs => if p c then [⟨cs, s.caps⟩] else []
  | .bol, s => if atLineStart text s.rest then [s] else []
  | .seq a b, s => (run text a s).flatMap (run text b)
  | .alt a b, s => run text a s ++ run text b s
  | .star g p, s => starRun g p s.caps s.rest
  | .group n a, s =>
    (run text a s).map fun e =>
      ⟨e.rest, Function.update e.caps n (s.rest.take (s.rest.length - e.rest.length))⟩

/-- Number of capture groups of a pattern. -/
def Re.numCap : Re → Nat
  | .seq a b => a.numCap + b.numCap
  | .alt a b => a.numCap + b.numCap
  | .group _ a => a.numCap + 1
  | _ => 0

/-- A literal string. -/
def lit : List Char → Re
  | [] => .eps
  | c :: cs => .seq (.cls (fun x => x == c)) (lit cs)

/-- The repetition `p+` (greedy) or `p+?` (lazy). -/
def plus (greedy : Bool) (p : Char → Bool) : Re := .seq (.cls p) (.star greedy p)

/-- The class `\s` of Go's regexp syntax: tab, line feed, form feed, carriage return,
space. -/
def reSpace (c : Char) : Bool :=
  c == '\t' || c == '\n' || c == '\x0c' || c == '\r' || c == ' '

/-- The class `\d`. -/
def reDigit (c : Char) : Bool := 48 ≤ c.toNat && c.toNat ≤ 57

/-- The class `.` without the flag `s`: anything but a line feed. -/
def reDot (c : Char) : Bool := c != '\n'

/-- The class `[\d,]`. -/
def reDigitComma (c : Char) : Bool := reDigit c || c == ','

/-- The month alternation `(?:Jan|Feb|Mar|Apr|May|Jun|Jul|Aug|Sep|Oct|Nov|Dec)`. -/
def reMonth : Re :=
  .alt (lit "Jan".data) (.alt (lit "Feb".data) (.alt (lit "Mar".data) (.alt (lit "Apr".data)
  (.alt (lit "May".data) (.alt (lit "Jun".data) (.alt (lit "Jul".data) (.alt (lit "Aug".data)
  (.alt (lit "Sep".data) (.alt (lit "Oct".data) (.alt (lit "Nov".data) (lit "Dec".data)))))))))))

/-- The contents of group 1, `(?:Jan|...|Dec)\s\d{1,2},\s\d{4}`; the counted repetition
`\d{1,2}` is a digit followed by an optional digit, taken when present. -/
def reDate : Re :=
  .seq reMonth (.seq (.cls reSpace) (.seq (.cls reDigit) (.seq (.alt (.cls reDigit) .eps)
  (.seq (lit [',']) (.seq (.cls reSpace) (.seq (.cls reDigit) (.seq (.cls reDigit)
  (.seq (.cls reDigit) (.cls reDigit)))))))))

/-- The contents of group 3, `[\d,]+\.\d{2}`. -/
def reAmount : Re :=
  .seq (plus true reDigitComma) (.seq (lit ['.']) (.seq (.cls reDigit) (.cls reDigit)))

/-- The part of both patterns after group 2, `\s+([\d,]+\.\d{2})\sHUF`. -/
def reTail : Re :=
  .seq (plus true reSpace) (.seq (.group 3 reAmount) (.seq (.cls reSpace) (lit "HUF".data)))

/-- The contents of group 2 of the outbound pattern, `.+?`. -/
def reDescOut : Re := plus false reDot

/-- The contents of group 2 of the inbound pattern,
`Apple Pay Top-Up.*?|Transfer from.*?|Goodwill`. -/
def reDescIn : Re :=
  .alt (.seq (lit "Apple Pay Top-Up".data) (.star false reDot))
  (.alt (.seq (lit "Transfer from".data) (.star false reDot)) (lit "Goodwill".data))

/-- A whole pattern of the parser, given the contents of group 2:
`(?m)^(DATE)\s+(DESC)\s+([\d,]+\.\d{2})\sHUF`. -/
def rePattern (desc : Re) : Re :=
  .seq .bol (.seq (.group 1 reDate) (.seq (plus true reSpace) (.seq (.group 2 desc) reTail)))

/-- The pattern `reOut` of the source ("Money out"). -/
def reOut : Re := rePattern reDescOut

/-- The pattern `reIn` of the source ("Money in"). -/
def reIn : Re := rePattern reDescIn

/-! ## Library functions -/

/-- The leftmost-first match of a pattern that starts exactly at the position of `rest`
in `text`. -/
def firstMatch (re : Re) (text rest : List Char) : Option St :=
  (run text re ⟨rest, fun _ => []⟩).head?

/-- The slice a match contributes to the result of `FindAllStringSubmatch`: the whole
match followed by the text of each capture group. -/
def submatches (re : Re) (rest : List Char) (e : St) : List (List Char) :=
  rest.take (rest.length - e.rest.length) :: (List.range re.numCap).map fun i => e.caps (i + 1)

/-- Scan of `FindAllStringSubmatch`: `skip` counts the characters still covered by the
previous match; at every other position the pattern is tried, and a match is reported and
skipped over.  (Both patterns end in the literal `HUF`, so a match is never empty.) -/
def findAllFrom (re : Re) (text : List Char) : Nat → List Char → List (List (List Char))
  | _, [] => []
  | skip + 1, _ :: cs => findAllFrom re text skip cs
  | 0, c :: cs =>
    match firstMatch re text (c :: cs) with
    | some e =>
      submatches re (c :: cs) e :: findAllFrom re text ((c :: cs).length - e.rest.length - 1) cs
    | none => findAllFrom re text 0 cs

/-- The call `re.FindAllStringSubmatch(text, -1)`. -/
def FindAllStringSubmatch (re : Re) (text : List Char) : List (List (List Char)) :=
  findAllFrom re text 0 text

/-- The predicate `unicode.IsSpace`: the white space that `strings.TrimSpace` removes. -/
def isSpace (c : Char) : Bool :=
  let n := c.toNat
  (9 ≤ n && n ≤ 13) || n == 0x20 || n == 0x85 || n == 0xA0 || n == 0x1680 ||
  (0x2000 ≤ n && n ≤ 0x200a) || n == 0x2028 || n == 0x2029 || n == 0x202f ||
  n == 0x205f || n == 0x3000

/-- The function `strings.TrimSpace`: leading and trailing white space removed. -/
def TrimSpace (s : List Char) : List Char :=
  ((s.dropWhile isSpace).reverse.dropWhile isSpace).reverse

/-- The call `strings.ReplaceAll(s, ",", "")`. -/
def removeCommas (s : List Char) : List Char := s.filter fun c => c != ','

/-! ## The parser (handlers.go) -/

/-- Body of the first loop: the record built from one match of `reOut`. -/
def expenseOf : List (List Char) → Option Expense
  | [_, date, desc, amount] =>
    some { ID := 0, Date := ⟨date⟩, Amount := ⟨'-' :: removeCommas amount⟩,
           Description := ⟨TrimSpace desc⟩, Category := "Expense" }
  | _ => none

/-- Body of the second loop: the record built from one match of `reIn`. -/
def incomeOf : List (List Char) → Option Expense
  | [_, date, desc, amount] =>
    some { ID := 0, Date := ⟨date⟩, Amount := ⟨removeCommas amount⟩,
           Description := ⟨TrimSpace desc⟩, Category := "Income" }
  | _ => none

/-- Records appended by the first loop. -/
def outRecords (text : String) : List Expense :=
  (FindAllStringSubmatch reOut text.data).filterMap expenseOf

/-- Records appended by the second loop. -/
def inRecords (text : String) : List Expense :=
  (FindAllStringSubmatch reIn text.data).filterMap incomeOf

/-- The function `parseRevolutStatement`. -/
def parseRevolutStatement (text : String) : List Expense :=
  outRecords text ++ inRecords text

/-! ## Declarative reading of a pattern -/

/-- The strings a pattern can consume, leaving aside priorities, groups and the line-start
assertion. -/
def Accepts : Re → List Char → Prop
  | .eps, xs => xs = []
  | .cls p, xs => ∃ c, xs = [c] ∧ p c = true
  | .bol, xs => xs = []
  | .seq a b, xs => ∃ u v, xs = u ++ v ∧ Accepts a u ∧ Accepts b v
  | .alt a b, xs => Accepts a xs ∨ Accepts b xs
  | .star _ p, xs => ∀ c ∈ xs, p c = true
  | .group _ a, xs => Accepts a xs

/-- Whether a pattern contains the line-start assertion. -/
def Re.hasBol : Re → Bool
  | .bol => true
  | .seq a b => a.hasBol || b.hasBol
  | .alt a b => a.hasBol || b.hasBol
  | .group _ a => a.hasBol
  | _ => false

/-- Go's `MatchString` for a pattern anchored at both ends: the pattern can consume the
whole of `s`. -/
def fullMatch (re : Re) (s : List Char) : Bool :=
  (run s re ⟨s, fun _ => []⟩).any fun e => e.rest.isEmpty

/-- The pattern `-?\d+\.\d{2}` that the specification states for the amount field. -/
def reAmountSpec : Re :=
  .seq (.alt (lit ['-']) .eps)
    (.seq (plus true reDigit) (.seq (lit ['.']) (.seq (.cls reDigit) (.cls reDigit))))

/-- The pattern `-?\d*\.\d{2}`: as `reAmountSpec`, with an integer part that may be
empty. -/
def reAmountLoose : Re :=
  .seq (.alt (lit ['-']) .eps)
    (.seq (.star true reDigit) (.seq (lit ['.']) (.seq (.cls reDigit) (.cls reDigit))))

/-- An alternation of literals, `l|l1|l2|...`, nested as in `reMonth`. -/
def altLits : List Char → List (List Char) → Re
  | l, [] => lit l
  | l, l2 :: ls => .alt (lit l) (altLits l2 ls)

/-- What group 2 does to a state reached by its body from a state whose unread input was
`start`: it records the text consumed since. -/
def capture2 (start : List Char) (m : St) : St :=
  ⟨m.rest, Function.update m.caps 2 (start.take (start.length - m.rest.length))⟩

/-- The matches of `.*?` inside group 2 followed by the rest of the pattern, when the
lazy repetition starts at the unread input `l` and the group started at `start`. -/
def lazyTail (text start : List Char) (caps : Nat → List Char) (l : List Char) : List St :=
  ((starRun false reDot caps l).map (capture2 start)).flatMap (run text reTail)

/-- The text `l` begins with an occurrence of `\s+[\d,]+\.\d{2}\sHUF`: white space, an
amount, one white-space character and the currency token. -/
def TailOccurrence (l : List Char) : Prop :=
  ∃ xs r, l = xs ++ r ∧ Accepts reTail xs

/-- A reading of the text `t` in the outbound shape: a date `d`, separating white space
`w`, a non-empty description `g` without line feed, white space `v`, an amount `a`, a
white-space character `c`, the currency token, and the remainder `rest`. -/
def OutShape (t d w g v a : List Char) (c : Char) (rest : List Char) : Prop :=
  t = d ++ w ++ g ++ v ++ a ++ c :: 'H' :: 'U' :: 'F' :: rest ∧
  Accepts reDate d ∧ (w ≠ [] ∧ ∀ x ∈ w, reSpace x = true) ∧
  (g ≠ [] ∧ ∀ x ∈ g, reDot x = true) ∧ (v ≠ [] ∧ ∀ x ∈ v, reSpace x = true) ∧
  Accepts reAmount a ∧ reSpace c = true

/-- The separator before `after` is as long as it can be: once more white space of `after`
is given to the separator, no non-empty description followed by an occurrence of
`\s+[\d,]+\.\d{2}\sHUF` remains. -/
def SepLongest (after : List Char) : Prop :=
  ∀ q r, q ≠ [] → (∀ x ∈ q, reSpace x = true) → after = q ++ r →
    ∀ h z, h ≠ [] → (∀ x ∈ h, reDot x = true) → r = h ++ z → ¬ TailOccurrence z

/-- The description `g` before `tail` is as short as it can be: no occurrence of
`\s+[\d,]+\.\d{2}\sHUF` begins inside `g` after its first character. -/
def DescShortest (g tail : List Char) : Prop :=
  ∀ g1 g2, g = g1 ++ g2 → g1 ≠ [] → g2 ≠ [] → ¬ TailOccurrence (g2 ++ tail)

/-- The reading that the backtracking order of the outbound pattern selects: the longest
separator, then the shortest description. -/
def Chosen (t d w g v a : List Char) (c : Char) (rest : List Char) : Prop :=
  OutShape t d w g v a c rest ∧
  SepLongest (g ++ v ++ a ++ c :: 'H' :: 'U' :: 'F' :: rest) ∧
  DescShortest g (v ++ a ++ c :: 'H' :: 'U' :: 'F' :: rest)

/-- The Expense record of a reading: the date, the trimmed text between the date and the
amount occurrence, and the amount without commas behind a minus sign. -/
def expenseRecord (d w g a : List Char) : Expense :=
  ⟨0, ⟨d⟩, "Expense", ⟨'-' :: removeCommas a⟩, ⟨TrimSpace (w ++ g)⟩⟩

/-! ## General facts about the matcher -/

theorem mem_starRun {g : Bool} {p : Char → Bool} {caps : Nat → List Char} {l : List Char}
    {e : St} :
    e ∈ starRun g p caps l ↔ ∃ xs, l = xs ++ e.rest ∧ (∀ c ∈ xs, p c = true) ∧ e.caps = caps := by
  induction l with
  | nil =>
    simp only [starRun, List.mem_singleton]
    constructor
    · rintro rfl
      exact ⟨[], rfl, by simp, rfl⟩
    · rintro ⟨xs, h, -, hc⟩
      have h1 : e.rest = [] := (List.append_eq_nil.mp h.symm).2
      cases e
      simp_all
  | cons c cs ih =>
    have here : e = ⟨c :: cs, caps⟩ ↔ (c :: cs = e.rest ∧ e.caps = caps) := by
      cases e
      simp [eq_comm]
    by_cases hp : p c = true
    · have hm : e ∈ starRun g p caps (c :: cs) ↔ (e ∈ starRun g p caps cs ∨ e = ⟨c :: cs, caps⟩) := by
        cases g <;> simp [starRun, hp, or_comm]
      rw [hm, ih, here]
      constructor
      · rintro (⟨ys, h1, h2, h3⟩ | ⟨h1, h2⟩)
        · refine ⟨c :: ys, by simp [h1], ?_, h3⟩
          intro x hx
          rcases List.mem_cons.mp hx with rfl | hx
          · exact hp
          · exact h2 x hx
        · exact ⟨[], by simp [h1], by simp, h2⟩
      · rintro ⟨xs, h1, h2, h3⟩
        cases xs with
        | nil => exact Or.inr ⟨by simpa using h1, h3⟩
        | cons x ys =>
          simp only [List.cons_append, List.cons.injEq] at h1
          exact Or.inl ⟨ys, h1.2, fun y hy => h2 y (List.mem_cons_of_mem _ hy), h3⟩
    · have hm : e ∈ starRun g p caps (c :: cs) ↔ e = ⟨c :: cs, caps⟩ := by
        simp [starRun, hp]
      rw [hm, here]
      constructor
      · rintro ⟨h1, h2⟩
        exact ⟨[], by simp [h1], by simp, h2⟩
      · rintro ⟨xs, h1, h2, h3⟩
        cases xs with
        | nil => exact ⟨by simpa using h1, h3⟩
        | cons x ys =>
          simp only [List.cons_append, List.cons.injEq] at h1
          exact absurd (h2 x (List.mem_cons_self _ _)) (by rw [← h1.1]; exact hp)

theorem run_rest {text : List Char} {re : Re} {s e : St} (h : e ∈ run text re s) :
    ∃ xs, s.rest = xs ++ e.rest ∧ Accepts re xs := by
  induction re generalizing s e with
  | eps =>
    simp only [run, List.mem_singleton] at h
    subst h
    exact ⟨[], rfl, rfl⟩
  | cls p =>
    simp only [run] at h
    split at h
    · simp at h
    · rename_i c cs hs
      split at h
      · rename_i hp
        simp only [List.mem_singleton] at h
        subst h
        exact ⟨[c], by simp [hs], c, rfl, hp⟩
      · simp at h
  | bol =>
    simp only [run] at h
    split at h
    · simp only [List.mem_singleton] at h
      subst h
      exact ⟨[], rfl, rfl⟩
    · simp at h
  | seq a b iha ihb =>
    simp only [run, List.mem_flatMap] at h
    obtain ⟨m, hm, he⟩ := h
    obtain ⟨u, hu, hau⟩ := iha hm
    obtain ⟨v, hv, hbv⟩ := ihb he
    exact ⟨u ++ v, by simp [hu, hv], u, v, rfl, hau, hbv⟩
  | alt a b iha ihb =>
    simp only [run, List.mem_append] at h
    rcases h with h | h
    · obtain ⟨u, hu, hau⟩ := iha h
      exact ⟨u, hu, Or.inl hau⟩
    · obtain ⟨u, hu, hau⟩ := ihb h
      exact ⟨u, hu, Or.inr hau⟩
  | star g p =>
    simp only [run, mem_starRun] at h
    obtain ⟨xs, h1, h2, -⟩ := h
    exact ⟨xs, h1, h2⟩
  | group n a ih =>
    simp only [run, List.mem_map] at h
    obtain ⟨m, hm, rfl⟩ := h
    exact ih (e := m) hm

theorem run_caps {text : List Char} {re : Re} {s e : St} (h0 : re.numCap = 0)
    (h : e ∈ run text re s) : e.caps = s.caps := by
  induction re generalizing s e with
  | eps =>
    simp only [run, List.mem_singleton] at h
    rw [h]
  | cls p =>
    simp only [run] at h
    split at h
    · simp at h
    · split at h
      · simp only [List.mem_singleton] at h
        rw [h]
      · simp at h
  | bol =>
    simp only [run] at h
    split at h
    · simp only [List.mem_singleton] at h
      rw [h]
    · simp at h
  | seq a b iha ihb =>
    simp only [Re.numCap, Nat.add_eq_zero] at h0
    simp only [run, List.mem_flatMap] at h
    obtain ⟨m, hm, he⟩ := h
    rw [ihb h0.2 he, iha h0.1 hm]
  | alt a b iha ihb =>
    simp only [Re.numCap, Nat.add_eq_zero] at h0
    simp only [run, List.mem_append] at h
    rcases h with h | h
    · exact iha h0.1 h
    · exact ihb h0.2 h
  | star g p =>
    simp only [run, mem_starRun] at h
    obtain ⟨xs, -, -, h3⟩ := h
    exact h3
  | group n a ih =>
    simp [Re.numCap] at h0

theorem run_complete (text : List Char) {re : Re} (hb : re.hasBol = false) {xs : List Char}
    (hx : Accepts re xs) (s : St) (r : List Char) (hs : s.rest = xs ++ r) :
    ∃ e ∈ run text re s, e.rest = r := by
  induction re generalizing s xs r with
  | eps =>
    simp only [Accepts] at hx
    subst hx
    exact ⟨s, by simp [run], by simpa using hs⟩
  | cls p =>
    obtain ⟨c, rfl, hp⟩ := hx
    refine ⟨⟨r, s.caps⟩, ?_, rfl⟩
    simp only [run]
    simp only [List.singleton_append] at hs
    rw [hs]
    simp [hp]
  | bol => simp [Re.hasBol] at hb
  | seq a b iha ihb =>
    simp only [Re.hasBol, Bool.or_eq_false_iff] at hb
    obtain ⟨u, v, rfl, hu, hv⟩ := hx
    obtain ⟨m, hm, hmr⟩ := iha hb.1 hu s (v ++ r) (by simp [hs])
    obtain ⟨e, he, her⟩ := ihb hb.2 hv m r hmr
    exact ⟨e, by simp only [run, List.mem_flatMap]; exact ⟨m, hm, he⟩, her⟩
  | alt a b iha ihb =>
    simp only [Re.hasBol, Bool.or_eq_false_iff] at hb
    rcases hx with hx | hx
    · obtain ⟨e, he, her⟩ := iha hb.1 hx s r hs
      exact ⟨e, by simp only [run, List.mem_append]; exact Or.inl he, her⟩
    · obtain ⟨e, he, her⟩ := ihb hb.2 hx s r hs
      exact ⟨e, by simp only [run, List.mem_append]; exact Or.inr he, her⟩
  | star g p =>
    refine ⟨⟨r, s.caps⟩, ?_, rfl⟩
    simp only [run, mem_starRun]
    exact ⟨xs, hs, hx, trivial⟩
  | group n a ih =>
    simp only [Re.hasBol] at hb
    obtain ⟨e, he, her⟩ := ih hb hx s r hs
    refine ⟨⟨e.rest, Function.update e.caps n (s.rest.take (s.rest.length - e.rest.length))⟩,
      ?_, her⟩
    simp only [run, List.mem_map]
    exact ⟨e, he, rfl⟩


theorem take_consumed (xs r : List Char) : (xs ++ r).take ((xs ++ r).length - r.length) = xs := by
  simp

theorem mem_run_group {text : List Char} {n : Nat} {a : Re} {s e : St} (h0 : a.numCap = 0)
    (h : e ∈ run text (.group n a) s) :
    ∃ xs, s.rest = xs ++ e.rest ∧ Accepts a xs ∧ e.caps = Function.update s.caps n xs := by
  simp only [run, List.mem_map] at h
  obtain ⟨m, hm, rfl⟩ := h
  obtain ⟨xs, hx, hacc⟩ := run_rest hm
  refine ⟨xs, hx, hacc, ?_⟩
  simp only
  rw [run_caps h0 hm, hx, take_consumed]

theorem accepts_lit {l xs : List Char} : Accepts (lit l) xs ↔ xs = l := by
  induction l generalizing xs with
  | nil => simp [lit, Accepts]
  | cons c cs ih =>
    simp only [lit, Accepts, ih]
    constructor
    · rintro ⟨u, v, rfl, ⟨x, rfl, hx⟩, rfl⟩
      simp only [beq_iff_eq] at hx
      simp [hx]
    · rintro rfl
      exact ⟨[c], cs, rfl, ⟨c, rfl, by simp⟩, rfl⟩

theorem accepts_plus {g : Bool} {p : Char → Bool} {xs : List Char} :
    Accepts (plus g p) xs ↔ xs ≠ [] ∧ ∀ c ∈ xs, p c = true := by
  simp only [plus, Accepts]
  constructor
  · rintro ⟨u, v, rfl, ⟨x, rfl, hx⟩, hv⟩
    refine ⟨by simp, ?_⟩
    intro c hc
    simp only [List.singleton_append, List.mem_cons] at hc
    rcases hc with rfl | hc
    · exact hx
    · exact hv c hc
  · rintro ⟨hne, hall⟩
    cases xs with
    | nil => exact absurd rfl hne
    | cons x ys =>
      exact ⟨[x], ys, rfl, ⟨x, rfl, hall x (List.mem_cons_self _ _)⟩,
        fun c hc => hall c (List.mem_cons_of_mem _ hc)⟩

theorem numCap_lit (l : List Char) : (lit l).numCap = 0 := by
  induction l with
  | nil => rfl
  | cons c cs ih => simp [lit, Re.numCap, ih]

theorem hasBol_lit (l : List Char) : (lit l).hasBol = false := by
  induction l with
  | nil => rfl
  | cons c cs ih => simp [lit, Re.hasBol, ih]

theorem numCap_reDate : reDate.numCap = 0 := by
  simp [reDate, reMonth, Re.numCap, numCap_lit]

theorem numCap_reAmount : reAmount.numCap = 0 := by
  simp [reAmount, plus, Re.numCap, numCap_lit]

theorem numCap_reDescOut : reDescOut.numCap = 0 := by
  simp [reDescOut, plus, Re.numCap]

theorem numCap_reDescIn : reDescIn.numCap = 0 := by
  simp [reDescIn, Re.numCap, numCap_lit]

theorem numCap_rePattern (desc : Re) (hd : desc.numCap = 0) : (rePattern desc).numCap = 3 := by
  simp [rePattern, reTail, plus, Re.numCap, numCap_lit, numCap_reDate, numCap_reAmount, hd]

theorem hasBol_reTail : reTail.hasBol = false := by
  simp [reTail, reAmount, plus, Re.hasBol, hasBol_lit]


theorem mem_run_seq {text : List Char} {a b : Re} {s e : St} :
    e ∈ run text (.seq a b) s ↔ ∃ m, m ∈ run text a s ∧ e ∈ run text b m := by
  simp only [run, List.mem_flatMap]

theorem mem_run_bol {text : List Char} {s e : St} (h : e ∈ run text .bol s) :
    e = s ∧ atLineStart text s.rest = true := by
  simp only [run] at h
  split at h
  · rename_i hb
    exact ⟨by simpa using h, hb⟩
  · simp at h

theorem mem_reTail {text : List Char} {s e : St} (h : e ∈ run text reTail s) :
    ∃ v a c, s.rest = v ++ a ++ c :: 'H' :: 'U' :: 'F' :: e.rest ∧
      Accepts (plus true reSpace) v ∧ Accepts reAmount a ∧ reSpace c = true ∧
      e.caps = Function.update s.caps 3 a := by
  rw [reTail, mem_run_seq] at h
  obtain ⟨m1, hv, h⟩ := h
  rw [mem_run_seq] at h
  obtain ⟨m2, hm2, h⟩ := h
  rw [mem_run_seq] at h
  obtain ⟨m3, hm3, he⟩ := h
  obtain ⟨v, hv1, hv2⟩ := run_rest hv
  have hvc := run_caps (by simp [plus, Re.numCap]) hv
  obtain ⟨a, ha1, ha2, ha3⟩ := mem_run_group numCap_reAmount hm2
  obtain ⟨cs, hc1, c, rfl, hc⟩ := run_rest hm3
  have hcc := run_caps (by simp [Re.numCap]) hm3
  obtain ⟨l, hl1, hl2⟩ := run_rest he
  have hlc := run_caps (numCap_lit _) he
  rw [accepts_lit] at hl2
  subst hl2
  refine ⟨v, a, c, ?_, hv2, ha2, hc, ?_⟩
  · rw [hv1, ha1, hc1, hl1]
    simp
  · rw [hlc, hcc, ha3, hvc]

theorem mem_rePattern {text : List Char} {desc : Re} {s e : St} (hd : desc.numCap = 0)
    (h : e ∈ run text (rePattern desc) s) :
    ∃ d w g v a c,
      s.rest = d ++ w ++ g ++ v ++ a ++ c :: 'H' :: 'U' :: 'F' :: e.rest ∧
      Accepts reDate d ∧ Accepts (plus true reSpace) w ∧ Accepts desc g ∧
      Accepts (plus true reSpace) v ∧ Accepts reAmount a ∧ reSpace c = true ∧
      e.caps 1 = d ∧ e.caps 2 = g ∧ e.caps 3 = a := by
  rw [rePattern, mem_run_seq] at h
  obtain ⟨m0, hm0, h⟩ := h
  rw [mem_run_seq] at h
  obtain ⟨m1, hm1g, h⟩ := h
  rw [mem_run_seq] at h
  obtain ⟨m2, hw, h⟩ := h
  rw [mem_run_seq] at h
  obtain ⟨m3, hm3g, he⟩ := h
  obtain ⟨h0, -⟩ := mem_run_bol hm0
  subst h0
  obtain ⟨d, hd1, hd2, hd3⟩ := mem_run_group numCap_reDate hm1g
  obtain ⟨w, hw1, hw2⟩ := run_rest hw
  have hwc := run_caps (by simp [plus, Re.numCap]) hw
  obtain ⟨g, hg1, hg2, hg3⟩ := mem_run_group hd hm3g
  obtain ⟨v, a, c, ht1, hv, ha, hc, hcaps⟩ := mem_reTail he
  refine ⟨d, w, g, v, a, c, ?_, hd2, hw2, hg2, hv, ha, hc, ?_, ?_, ?_⟩
  · rw [hd1, hw1, hg1, ht1]
    simp
  · rw [hcaps, hg3, hwc, hd3]
    simp [Function.update]
  · rw [hcaps, hg3]
    simp [Function.update]
  · rw [hcaps]
    simp [Function.update]

theorem mem_findAllFrom {re : Re} {text : List Char} {m : List (List Char)} :
    ∀ (rest : List Char) (skip : Nat), m ∈ findAllFrom re text skip rest →
      ∃ pos e, firstMatch re text pos = some e ∧ m = submatches re pos e := by
  intro rest
  induction rest with
  | nil =>
    intro skip h
    cases skip <;> simp [findAllFrom] at h
  | cons c cs ih =>
    intro skip h
    cases skip with
    | succ k =>
      simp only [findAllFrom] at h
      exact ih k h
    | zero =>
      simp only [findAllFrom] at h
      split at h
      · rename_i e he
        rcases List.mem_cons.mp h with rfl | h
        · exact ⟨c :: cs, e, he, rfl⟩
        · exact ih _ h
      · exact ih 0 h

theorem mem_of_firstMatch {re : Re} {text pos : List Char} {e : St}
    (h : firstMatch re text pos = some e) : e ∈ run text re ⟨pos, fun _ => []⟩ :=
  List.mem_of_mem_head? h

theorem submatches_rePattern (desc : Re) (hd : desc.numCap = 0) (pos : List Char) (e : St) :
    submatches (rePattern desc) pos e =
      [pos.take (pos.length - e.rest.length), e.caps 1, e.caps 2, e.caps 3] := by
  simp [submatches, numCap_rePattern desc hd, List.range_succ]

theorem mem_outRecords {t : String} {r : Expense} (h : r ∈ outRecords t) :
    ∃ d g a, Accepts reDate d ∧ Accepts reDescOut g ∧ Accepts reAmount a ∧
      r = ⟨0, ⟨d⟩, "Expense", ⟨'-' :: removeCommas a⟩, ⟨TrimSpace g⟩⟩ := by
  simp only [outRecords, FindAllStringSubmatch, List.mem_filterMap] at h
  obtain ⟨m, hm, hr⟩ := h
  obtain ⟨pos, e, he, rfl⟩ := mem_findAllFrom _ _ hm
  obtain ⟨d, w, g, v, a, c, -, hd, -, hg, -, ha, -, h1, h2, h3⟩ :=
    mem_rePattern numCap_reDescOut (mem_of_firstMatch he)
  simp only [reOut, submatches_rePattern _ numCap_reDescOut, expenseOf, Option.some.injEq] at hr
  exact ⟨d, g, a, hd, hg, ha, by rw [← hr, h1, h2, h3]⟩

theorem mem_inRecords {t : String} {r : Expense} (h : r ∈ inRecords t) :
    ∃ d g a, Accepts reDate d ∧ Accepts reDescIn g ∧ Accepts reAmount a ∧
      r = ⟨0, ⟨d⟩, "Income", ⟨removeCommas a⟩, ⟨TrimSpace g⟩⟩ := by
  simp only [inRecords, FindAllStringSubmatch, List.mem_filterMap] at h
  obtain ⟨m, hm, hr⟩ := h
  obtain ⟨pos, e, he, rfl⟩ := mem_findAllFrom _ _ hm
  obtain ⟨d, w, g, v, a, c, -, hd, -, hg, -, ha, -, h1, h2, h3⟩ :=
    mem_rePattern numCap_reDescIn (mem_of_firstMatch he)
  simp only [reIn, submatches_rePattern _ numCap_reDescIn, incomeOf, Option.some.injEq] at hr
  exact ⟨d, g, a, hd, hg, ha, by rw [← hr, h1, h2, h3]⟩


/-! ## Shapes of the captured text -/

theorem accepts_reAmount {a : List Char} (h : Accepts reAmount a) :
    ∃ xs d1 d2, a = xs ++ ['.', d1, d2] ∧ xs ≠ [] ∧ (∀ c ∈ xs, reDigitComma c = true) ∧
      reDigit d1 = true ∧ reDigit d2 = true := by
  rw [reAmount] at h
  obtain ⟨xs, v, rfl, hxs, u1, v1, rfl, hdot, u2, u3, rfl, ⟨d1, rfl, hd1⟩, ⟨d2, rfl, hd2⟩⟩ := h
  rw [accepts_plus] at hxs
  rw [accepts_lit] at hdot
  subst hdot
  exact ⟨xs, d1, d2, by simp, hxs.1, hxs.2, hd1, hd2⟩

theorem mem_removeCommas {xs : List Char} (h : ∀ c ∈ xs, reDigitComma c = true) :
    ∀ c ∈ removeCommas xs, reDigit c = true := by
  intro c hc
  simp only [removeCommas, List.mem_filter, bne_iff_ne, ne_eq] at hc
  have := h c hc.1
  simp only [reDigitComma, Bool.or_eq_true, beq_iff_eq] at this
  rcases this with h1 | h1
  · exact h1
  · exact absurd h1 hc.2

theorem removeCommas_amount {xs : List Char} {d1 d2 : Char} (h1 : reDigit d1 = true)
    (h2 : reDigit d2 = true) :
    removeCommas (xs ++ ['.', d1, d2]) = removeCommas xs ++ ['.', d1, d2] := by
  have e1 : d1 ≠ ',' := by
    rintro rfl
    exact absurd h1 (by decide)
  have e2 : d2 ≠ ',' := by
    rintro rfl
    exact absurd h2 (by decide)
  simp [removeCommas, List.filter_cons, e1, e2]

theorem mem_TrimSpace {g : List Char} {x : Char} (h : x ∈ TrimSpace g) : x ∈ g := by
  simp only [TrimSpace, List.mem_reverse] at h
  exact (List.dropWhile_sublist _).subset
    (List.mem_reverse.mp ((List.dropWhile_sublist _).subset h))

theorem dropWhile_append_keep (f : Char → Bool) (q : List Char) (c : Char) (hc : f c = false) :
    ∀ l : List Char, ∃ k, (l ++ c :: q).dropWhile f = k ++ c :: q := by
  intro l
  induction l with
  | nil => exact ⟨[], by simp [List.dropWhile_cons, hc]⟩
  | cons x xs ih =>
    by_cases hx : f x = true
    · obtain ⟨k, hk⟩ := ih
      exact ⟨k, by simp [List.dropWhile_cons, hx, hk]⟩
    · exact ⟨x :: xs, by simp [List.dropWhile_cons, hx]⟩

theorem TrimSpace_keeps (a : Char) (mid : List Char) (z : Char) (ys : List Char)
    (ha : isSpace a = false) (hz : isSpace z = false) :
    ∃ k, TrimSpace (a :: mid ++ z :: ys) = a :: mid ++ z :: k := by
  have h1 : (a :: mid ++ z :: ys).dropWhile isSpace = a :: mid ++ z :: ys := by
    simp [List.dropWhile_cons, ha]
  obtain ⟨k, hk⟩ := dropWhile_append_keep isSpace (mid.reverse ++ [a]) z hz ys.reverse
  refine ⟨k.reverse, ?_⟩
  have h2 : (a :: mid ++ z :: ys).reverse = ys.reverse ++ z :: (mid.reverse ++ [a]) := by
    simp
  rw [TrimSpace, h1, h2, hk]
  simp


theorem isSpace_of_reSpace {x : Char} (h : reSpace x = true) : isSpace x = true := by
  simp only [reSpace, Bool.or_eq_true, beq_iff_eq] at h
  rcases h with (((rfl | rfl) | rfl) | rfl) | rfl <;> decide

theorem TrimSpace_append_left {w : List Char} (hw : ∀ x ∈ w, reSpace x = true)
    (g : List Char) : TrimSpace (w ++ g) = TrimSpace g := by
  have : (w ++ g).dropWhile isSpace = g.dropWhile isSpace := by
    induction w with
    | nil => rfl
    | cons x xs ih =>
      have hx := isSpace_of_reSpace (hw x (List.mem_cons_self _ _))
      simp only [List.cons_append, List.dropWhile_cons, hx, if_true]
      exact ih (fun y hy => hw y (List.mem_cons_of_mem _ hy))
  simp only [TrimSpace, this]

theorem accepts_reDescIn {g : List Char} (h : Accepts reDescIn g) :
    (∃ v, g = "Apple Pay Top-Up".data ++ v ∧ ∀ c ∈ v, reDot c = true) ∨
    (∃ v, g = "Transfer from".data ++ v ∧ ∀ c ∈ v, reDot c = true) ∨
    g = "Goodwill".data := by
  rw [reDescIn] at h
  rcases h with ⟨u, v, rfl, hu, hv⟩ | ⟨u, v, rfl, hu, hv⟩ | h
  · rw [accepts_lit] at hu
    exact Or.inl ⟨v, by rw [hu], hv⟩
  · rw [accepts_lit] at hu
    exact Or.inr (Or.inl ⟨v, by rw [hu], hv⟩)
  · rw [accepts_lit] at h
    exact Or.inr (Or.inr h)

theorem trim_reDescIn {g : List Char} (h : Accepts reDescIn g) :
    "Apple Pay Top-Up".data <+: TrimSpace g ∨ "Transfer from".data <+: TrimSpace g ∨
      TrimSpace g = "Goodwill".data := by
  rcases accepts_reDescIn h with ⟨v, rfl, -⟩ | ⟨v, rfl, -⟩ | rfl
  · obtain ⟨k, hk⟩ := TrimSpace_keeps 'A' "pple Pay Top-U".data 'p' v (by decide) (by decide)
    exact Or.inl ⟨k, hk.symm⟩
  · obtain ⟨k, hk⟩ := TrimSpace_keeps 'T' "ransfer fro".data 'm' v (by decide) (by decide)
    exact Or.inr (Or.inl ⟨k, hk.symm⟩)
  · exact Or.inr (Or.inr (by decide))

theorem income_description {t : String} {r : Expense} (h : r ∈ inRecords t) :
    "Apple Pay Top-Up".data <+: r.Description.data ∨
      "Transfer from".data <+: r.Description.data ∨ r.Description = "Goodwill" := by
  obtain ⟨d, g, a, -, hg, -, rfl⟩ := mem_inRecords h
  rcases trim_reDescIn hg with h1 | h1 | h1
  · exact Or.inl h1
  · exact Or.inr (Or.inl h1)
  · exact Or.inr (Or.inr (by simp only [h1]))

theorem category_outRecords {t : String} {r : Expense} (h : r ∈ outRecords t) :
    r.Category = "Expense" := by
  obtain ⟨d, g, a, -, -, -, rfl⟩ := mem_outRecords h
  rfl

theorem category_inRecords {t : String} {r : Expense} (h : r ∈ inRecords t) :
    r.Category = "Income" := by
  obtain ⟨d, g, a, -, -, -, rfl⟩ := mem_inRecords h
  rfl

theorem mem_parse {t : String} {r : Expense} (h : r ∈ parseRevolutStatement t) :
    r ∈ outRecords t ∨ r ∈ inRecords t := by
  simpa [parseRevolutStatement] using h


theorem fullMatch_of_accepts {re : Re} (hb : re.hasBol = false) {s : List Char}
    (h : Accepts re s) : fullMatch re s = true := by
  obtain ⟨e, he, her⟩ := run_complete s hb h ⟨s, fun _ => []⟩ [] (by simp)
  simp only [fullMatch, List.any_eq_true]
  exact ⟨e, he, by simp [her]⟩

theorem accepts_reAmountLoose (sign ds : List Char) (d1 d2 : Char)
    (hs : sign = ['-'] ∨ sign = []) (hds : ∀ c ∈ ds, reDigit c = true)
    (h1 : reDigit d1 = true) (h2 : reDigit d2 = true) :
    Accepts reAmountLoose (sign ++ (ds ++ ['.', d1, d2])) := by
  refine ⟨sign, ds ++ ['.', d1, d2], rfl, ?_, ds, ['.', d1, d2], rfl, hds, ['.'], [d1, d2], rfl,
    ?_, [d1], [d2], rfl, ⟨d1, rfl, h1⟩, ⟨d2, rfl, h2⟩⟩
  · rcases hs with rfl | rfl
    · exact Or.inl (accepts_lit.mpr rfl)
    · exact Or.inr rfl
  · exact accepts_lit.mpr rfl

theorem hasBol_reAmountLoose : reAmountLoose.hasBol = false := by
  simp [reAmountLoose, Re.hasBol, hasBol_lit]

theorem amount_chars {xs : List Char} {d1 d2 : Char} (hx : ∀ c ∈ xs, reDigitComma c = true)
    (h1 : reDigit d1 = true) (h2 : reDigit d2 = true) {c : Char}
    (hc : c ∈ removeCommas (xs ++ ['.', d1, d2])) : reDigit c = true ∨ c = '.' := by
  rw [removeCommas_amount h1 h2] at hc
  simp only [List.mem_append, List.mem_cons, List.mem_singleton, List.not_mem_nil,
    or_false] at hc
  rcases hc with hc | rfl | rfl | rfl
  · exact Or.inl (mem_removeCommas hx c hc)
  · exact Or.inr rfl
  · exact Or.inl h1
  · exact Or.inl h2


theorem currency_of_match {desc : Re} (hd : desc.numCap = 0) {text pos : List Char} {e : St}
    (h : firstMatch (rePattern desc) text pos = some e) : "HUF".data <:+: pos := by
  obtain ⟨d, w, g, v, a, c, hs, -⟩ := mem_rePattern hd (mem_of_firstMatch h)
  simp only at hs
  exact ⟨d ++ w ++ g ++ v ++ a ++ [c], e.rest, by rw [hs]; simp⟩

theorem findAllFrom_no_currency {desc : Re} (hd : desc.numCap = 0) (text : List Char) :
    ∀ (rest : List Char) (skip : Nat), ¬ "HUF".data <:+: rest →
      findAllFrom (rePattern desc) text skip rest = [] := by
  intro rest
  induction rest with
  | nil =>
    intro skip _
    cases skip <;> rfl
  | cons c cs ih =>
    intro skip hno
    have hcs : ¬ "HUF".data <:+: cs := by
      rintro ⟨s, t, hst⟩
      exact hno ⟨c :: s, t, by simp [← hst]⟩
    cases skip with
    | succ k =>
      simp only [findAllFrom]
      exact ih k hcs
    | zero =>
      simp only [findAllFrom]
      cases hfm : firstMatch (rePattern desc) text (c :: cs) with
      | some e => exact absurd (currency_of_match hd hfm) hno
      | none => exact ih 0 hcs


/-! ## Determinism of the date pattern -/

theorem length_le_one_cases {α : Type} {l : List α} (h : l.length ≤ 1) :
    l = [] ∨ ∃ a, l = [a] := by
  match l, h with
  | [], _ => exact Or.inl rfl
  | [a], _ => exact Or.inr ⟨a, rfl⟩
  | _ :: _ :: _, h => simp at h

theorem det_cls (text : List Char) (p : Char → Bool) (s : St) :
    (run text (.cls p) s).length ≤ 1 := by
  simp only [run]
  split
  · simp
  · split <;> simp

theorem det_seq {text : List Char} {a b : Re} (ha : ∀ s, (run text a s).length ≤ 1)
    (hb : ∀ s, (run text b s).length ≤ 1) (s : St) : (run text (.seq a b) s).length ≤ 1 := by
  simp only [run]
  rcases length_le_one_cases (ha s) with h | ⟨m, h⟩
  · simp [h]
  · simpa [h] using hb m

theorem det_lit (text l : List Char) (s : St) : (run text (lit l) s).length ≤ 1 := by
  induction l generalizing s with
  | nil => simp [lit, run]
  | cons c cs ih => exact det_seq (det_cls text _) ih s

theorem run_lit_nil {text l : List Char} {s : St} (h : ¬ l <+: s.rest) :
    run text (lit l) s = [] := by
  rw [List.eq_nil_iff_forall_not_mem]
  intro e he
  obtain ⟨xs, hx, hacc⟩ := run_rest he
  rw [accepts_lit] at hacc
  subst hacc
  exact h ⟨e.rest, hx.symm⟩

theorem run_lit_append (text l r : List Char) (caps : Nat → List Char) :
    run text (lit l) ⟨l ++ r, caps⟩ = [⟨r, caps⟩] := by
  induction l with
  | nil => simp [lit, run]
  | cons c cs ih => simp [lit, run, ih]

theorem run_altLits_nil {text : List Char} {s : St} :
    ∀ (ls : List (List Char)) (l : List Char), (∀ m ∈ l :: ls, ¬ m <+: s.rest) →
      run text (altLits l ls) s = [] := by
  intro ls
  induction ls with
  | nil =>
    intro l h
    exact run_lit_nil (h l (List.mem_cons_self _ _))
  | cons l2 ls ih =>
    intro l h
    simp only [altLits, run, List.append_eq_nil]
    exact ⟨run_lit_nil (h l (List.mem_cons_self _ _)),
      ih l2 (fun m hm => h m (List.mem_cons_of_mem _ hm))⟩

theorem det_altLits {text : List Char} :
    ∀ (ls : List (List Char)) (l : List Char),
      (l :: ls).Pairwise (fun a b => a.length = b.length ∧ a ≠ b) →
      ∀ s, (run text (altLits l ls) s).length ≤ 1 := by
  intro ls
  induction ls with
  | nil =>
    intro l _ s
    exact det_lit text l s
  | cons l2 ls ih =>
    intro l hp s
    rw [List.pairwise_cons] at hp
    simp only [altLits, run, List.length_append]
    by_cases hl : l <+: s.rest
    · have hnil : run text (altLits l2 ls) s = [] := by
        apply run_altLits_nil
        intro m hm hpre
        obtain ⟨t1, h1⟩ := hl
        obtain ⟨t2, h2⟩ := hpre
        have := hp.1 m hm
        exact this.2 (List.append_inj_left (h1.trans h2.symm) this.1)
      rw [hnil]
      simpa using det_lit text l s
    · rw [run_lit_nil hl]
      simpa using ih l2 hp.2 s

theorem reMonth_eq : reMonth = altLits "Jan".data ["Feb".data, "Mar".data, "Apr".data,
    "May".data, "Jun".data, "Jul".data, "Aug".data, "Sep".data, "Oct".data, "Nov".data,
    "Dec".data] := rfl

theorem det_reMonth (text : List Char) (s : St) : (run text reMonth s).length ≤ 1 := by
  rw [reMonth_eq]
  exact det_altLits _ _ (by decide) s

theorem det_optional_digit {text : List Char} {k : Re}
    (hk : ∀ s, (run text k s).length ≤ 1) (s : St) :
    (run text (.seq (.alt (.cls reDigit) .eps) (.seq (lit [',']) k)) s).length ≤ 1 := by
  have hK : ∀ s, (run text (.seq (lit [',']) k) s).length ≤ 1 :=
    det_seq (det_lit text _) hk
  rcases s with ⟨_ | ⟨c, cs⟩, caps⟩
  · simp [run, lit]
  · by_cases hc : reDigit c = true
    · have hne : c ≠ ',' := by
        rintro rfl
        exact absurd hc (by decide)
      have := hK ⟨cs, caps⟩
      simpa [run, lit, hc, hne] using this
    · have := hK ⟨c :: cs, caps⟩
      simpa [run, lit, hc] using this

theorem det_reDate (text : List Char) (s : St) : (run text reDate s).length ≤ 1 := by
  rw [reDate]
  refine det_seq (det_reMonth text) (det_seq (det_cls text _) (det_seq (det_cls text _)
    (det_optional_digit (det_seq (det_cls text _) (det_seq (det_cls text _)
    (det_seq (det_cls text _) (det_seq (det_cls text _) (det_cls text _)))))))) s


/-! ## The inbound pattern against the outbound pattern -/

theorem run_group2_seq (text : List Char) (x : Re) (s : St) :
    run text (.seq (.group 2 x) reTail) s =
      ((run text x s).map (capture2 s.rest)).flatMap (run text reTail) := rfl

theorem reTail_nil_of_head {text : List Char} {s : St} {c : Char} {l : List Char}
    (hs : s.rest = c :: l) (hc : reSpace c = false) : run text reTail s = [] := by
  rw [List.eq_nil_iff_forall_not_mem]
  intro e he
  obtain ⟨v, a, x, h1, hv, -⟩ := mem_reTail he
  rw [accepts_plus] at hv
  rw [hs] at h1
  cases v with
  | nil => exact hv.1 rfl
  | cons y v =>
    simp only [List.cons_append, List.cons.injEq] at h1
    have := hv.2 y (List.mem_cons_self _ _)
    rw [← h1.1, hc] at this
    exact Bool.noConfusion this

theorem reTail_nil_of_second {text : List Char} {s : St} {c d : Char} {l : List Char}
    (hs : s.rest = c :: d :: l) (h2 : reSpace d = false) (h3 : reDigitComma d = false) :
    run text reTail s = [] := by
  rw [List.eq_nil_iff_forall_not_mem]
  intro e he
  obtain ⟨v, a, x, h1, hv, ha, -⟩ := mem_reTail he
  rw [accepts_plus] at hv
  obtain ⟨xs, d1, d2, rfl, hxs, hx, -⟩ := accepts_reAmount ha
  rw [hs] at h1
  cases v with
  | nil => exact hv.1 rfl
  | cons y v =>
    simp only [List.cons_append, List.cons.injEq] at h1
    cases v with
    | nil =>
      cases xs with
      | nil => exact hxs rfl
      | cons z xs =>
        simp only [List.nil_append, List.cons_append, List.cons.injEq] at h1
        have := hx z (List.mem_cons_self _ _)
        rw [← h1.2.1, h3] at this
        exact Bool.noConfusion this
    | cons z v =>
      simp only [List.cons_append, List.cons.injEq] at h1
      have := hv.2 z (List.mem_cons_of_mem _ (List.mem_cons_self _ _))
      rw [← h1.2.1, h2] at this
      exact Bool.noConfusion this

theorem lazyTail_cons {text start : List Char} {caps : Nat → List Char} {c : Char}
    {cs : List Char} (hc : reDot c = true) :
    lazyTail text start caps (c :: cs) =
      run text reTail (capture2 start ⟨c :: cs, caps⟩) ++ lazyTail text start caps cs := by
  simp [lazyTail, starRun, hc]

theorem lazyTail_head (text start : List Char) (caps : Nat → List Char) (l : List Char) :
    ∃ more, lazyTail text start caps l =
      run text reTail (capture2 start ⟨l, caps⟩) ++ more := by
  cases l with
  | nil => exact ⟨[], by simp [lazyTail, starRun]⟩
  | cons c cs =>
    by_cases hc : reDot c = true
    · exact ⟨_, lazyTail_cons hc⟩
    · exact ⟨[], by simp [lazyTail, starRun, hc]⟩

theorem lazyTail_skip {text start : List Char} {caps : Nat → List Char} {c : Char}
    {cs : List Char} (hc : reDot c = true) (hs : reSpace c = false) :
    lazyTail text start caps (c :: cs) = lazyTail text start caps cs := by
  rw [lazyTail_cons hc, reTail_nil_of_head (c := c) (l := cs) rfl hs, List.nil_append]

theorem lazyTail_skip_two {text start : List Char} {caps : Nat → List Char} {c d : Char}
    {cs : List Char} (hc : reDot c = true) (hc2 : reDot d = true)
    (h2 : reSpace d = false) (h3 : reDigitComma d = false) :
    lazyTail text start caps (c :: d :: cs) = lazyTail text start caps cs := by
  rw [lazyTail_cons hc, reTail_nil_of_second (c := c) (d := d) (l := cs) rfl h2 h3,
    List.nil_append, lazyTail_skip hc2 h2]

theorem run_plus_cons (text : List Char) (g : Bool) (p : Char → Bool) (c : Char)
    (cs : List Char) (caps : Nat → List Char) :
    run text (plus g p) ⟨c :: cs, caps⟩ = if p c = true then starRun g p caps cs else [] := by
  by_cases hc : p c = true <;> simp [plus, run, hc]

theorem run_plus_nil (text : List Char) (g : Bool) (p : Char → Bool)
    (caps : Nat → List Char) : run text (plus g p) ⟨[], caps⟩ = [] := by
  simp [plus, run]

theorem run_descOut_tail (text : List Char) (c : Char) (cs : List Char)
    (caps : Nat → List Char) (hc : reDot c = true) :
    run text (.seq (.group 2 reDescOut) reTail) ⟨c :: cs, caps⟩ =
      lazyTail text (c :: cs) caps cs := by
  rw [run_group2_seq, reDescOut, run_plus_cons, if_pos hc, lazyTail]


theorem head?_append_of_some {α : Type} {l m : List α} {a : α} (h : l.head? = some a) :
    (l ++ m).head? = some a := by
  cases l with
  | nil => simp at h
  | cons x xs => simpa using h

theorem not_starts_of_head {a b : Char} {l1 l2 : List Char} (h : a ≠ b) :
    ¬ (a :: l1) <+: (b :: l2) := by
  rintro ⟨t, ht⟩
  simp only [List.cons_append, List.cons.injEq] at ht
  exact h ht.1

theorem run_alt (text : List Char) (a b : Re) (s : St) :
    run text (.alt a b) s = run text a s ++ run text b s := rfl

theorem run_seq (text : List Char) (a b : Re) (s : St) :
    run text (.seq a b) s = (run text a s).flatMap (run text b) := rfl

theorem run_star (text : List Char) (g : Bool) (p : Char → Bool) (s : St) :
    run text (.star g p) s = starRun g p s.caps s.rest := rfl

theorem run_descIn_apple (text r : List Char) (caps : Nat → List Char) :
    run text reDescIn ⟨"Apple Pay Top-Up".data ++ r, caps⟩ = starRun false reDot caps r := by
  have h2 : ¬ "Transfer from".data <+: (⟨"Apple Pay Top-Up".data ++ r, caps⟩ : St).rest :=
    not_starts_of_head (a := 'T') (b := 'A') (by decide)
  have h3 : ¬ "Goodwill".data <+: (⟨"Apple Pay Top-Up".data ++ r, caps⟩ : St).rest :=
    not_starts_of_head (a := 'G') (b := 'A') (by decide)
  rw [reDescIn, run_alt, run_alt, run_seq, run_seq, run_lit_append, run_lit_nil h2,
    run_lit_nil h3]
  simp [run_star]

theorem run_descIn_transfer (text r : List Char) (caps : Nat → List Char) :
    run text reDescIn ⟨"Transfer from".data ++ r, caps⟩ = starRun false reDot caps r := by
  have h1 : ¬ "Apple Pay Top-Up".data <+: (⟨"Transfer from".data ++ r, caps⟩ : St).rest :=
    not_starts_of_head (a := 'A') (b := 'T') (by decide)
  have h3 : ¬ "Goodwill".data <+: (⟨"Transfer from".data ++ r, caps⟩ : St).rest :=
    not_starts_of_head (a := 'G') (b := 'T') (by decide)
  rw [reDescIn, run_alt, run_alt, run_seq, run_seq, run_lit_append, run_lit_nil h1,
    run_lit_nil h3]
  simp [run_star]

theorem run_descIn_goodwill (text r : List Char) (caps : Nat → List Char) :
    run text reDescIn ⟨"Goodwill".data ++ r, caps⟩ = [⟨r, caps⟩] := by
  have h1 : ¬ "Apple Pay Top-Up".data <+: (⟨"Goodwill".data ++ r, caps⟩ : St).rest :=
    not_starts_of_head (a := 'A') (b := 'G') (by decide)
  have h2 : ¬ "Transfer from".data <+: (⟨"Goodwill".data ++ r, caps⟩ : St).rest :=
    not_starts_of_head (a := 'T') (b := 'G') (by decide)
  rw [reDescIn, run_alt, run_alt, run_seq, run_seq, run_lit_append, run_lit_nil h1,
    run_lit_nil h2]
  simp

theorem run_descIn_nil {text : List Char} {s : St}
    (h1 : ¬ "Apple Pay Top-Up".data <+: s.rest) (h2 : ¬ "Transfer from".data <+: s.rest)
    (h3 : ¬ "Goodwill".data <+: s.rest) : run text reDescIn s = [] := by
  rw [reDescIn, run_alt, run_alt, run_seq, run_seq, run_lit_nil h1, run_lit_nil h2,
    run_lit_nil h3]
  simp

theorem lazyTail_apple (text start r : List Char) (caps : Nat → List Char) :
    lazyTail text start caps ("pple Pay Top-Up".data ++ r) = lazyTail text start caps r := by
  show lazyTail text start caps ('p' :: 'p' :: 'l' :: 'e' :: ' ' :: 'P' :: 'a' :: 'y' :: ' ' ::
    'T' :: 'o' :: 'p' :: '-' :: 'U' :: 'p' :: r) = _
  rw [lazyTail_skip (c := 'p') (by decide) (by decide),
    lazyTail_skip (c := 'p') (by decide) (by decide),
    lazyTail_skip (c := 'l') (by decide) (by decide),
    lazyTail_skip (c := 'e') (by decide) (by decide),
    lazyTail_skip_two (c := ' ') (d := 'P') (by decide) (by decide) (by decide) (by decide),
    lazyTail_skip (c := 'a') (by decide) (by decide),
    lazyTail_skip (c := 'y') (by decide) (by decide),
    lazyTail_skip_two (c := ' ') (d := 'T') (by decide) (by decide) (by decide) (by decide),
    lazyTail_skip (c := 'o') (by decide) (by decide),
    lazyTail_skip (c := 'p') (by decide) (by decide),
    lazyTail_skip (c := '-') (by decide) (by decide),
    lazyTail_skip (c := 'U') (by decide) (by decide),
    lazyTail_skip (c := 'p') (by decide) (by decide)]

theorem lazyTail_transfer (text start r : List Char) (caps : Nat → List Char) :
    lazyTail text start caps ("ransfer from".data ++ r) = lazyTail text start caps r := by
  show lazyTail text start caps ('r' :: 'a' :: 'n' :: 's' :: 'f' :: 'e' :: 'r' :: ' ' :: 'f' ::
    'r' :: 'o' :: 'm' :: r) = _
  rw [lazyTail_skip (c := 'r') (by decide) (by decide),
    lazyTail_skip (c := 'a') (by decide) (by decide),
    lazyTail_skip (c := 'n') (by decide) (by decide),
    lazyTail_skip (c := 's') (by decide) (by decide),
    lazyTail_skip (c := 'f') (by decide) (by decide),
    lazyTail_skip (c := 'e') (by decide) (by decide),
    lazyTail_skip (c := 'r') (by decide) (by decide),
    lazyTail_skip_two (c := ' ') (d := 'f') (by decide) (by decide) (by decide) (by decide),
    lazyTail_skip (c := 'r') (by decide) (by decide),
    lazyTail_skip (c := 'o') (by decide) (by decide),
    lazyTail_skip (c := 'm') (by decide) (by decide)]

theorem lazyTail_goodwill (text start r : List Char) (caps : Nat → List Char) :
    lazyTail text start caps ("oodwill".data ++ r) = lazyTail text start caps r := by
  show lazyTail text start caps ('o' :: 'o' :: 'd' :: 'w' :: 'i' :: 'l' :: 'l' :: r) = _
  rw [lazyTail_skip (c := 'o') (by decide) (by decide),
    lazyTail_skip (c := 'o') (by decide) (by decide),
    lazyTail_skip (c := 'd') (by decide) (by decide),
    lazyTail_skip (c := 'w') (by decide) (by decide),
    lazyTail_skip (c := 'i') (by decide) (by decide),
    lazyTail_skip (c := 'l') (by decide) (by decide),
    lazyTail_skip (c := 'l') (by decide) (by decide)]

/-- At any position, the first match of group 2 of the inbound pattern followed by the
rest of the pattern is also the first match of group 2 of the outbound pattern followed
by the rest of the pattern. -/
theorem descIn_head_descOut (text : List Char) (s e : St)
    (h : (run text (.seq (.group 2 reDescIn) reTail) s).head? = some e) :
    (run text (.seq (.group 2 reDescOut) reTail) s).head? = some e := by
  rcases s with ⟨rest, caps⟩
  rw [run_group2_seq] at h
  by_cases h1 : "Apple Pay Top-Up".data <+: rest
  · obtain ⟨r, rfl⟩ := h1
    rw [run_descIn_apple] at h
    have := run_descOut_tail text 'A' ("pple Pay Top-Up".data ++ r) caps (by decide)
    rw [lazyTail_apple] at this
    exact this ▸ h
  · by_cases h2 : "Transfer from".data <+: rest
    · obtain ⟨r, rfl⟩ := h2
      rw [run_descIn_transfer] at h
      have := run_descOut_tail text 'T' ("ransfer from".data ++ r) caps (by decide)
      rw [lazyTail_transfer] at this
      exact this ▸ h
    · by_cases h3 : "Goodwill".data <+: rest
      · obtain ⟨r, rfl⟩ := h3
        rw [run_descIn_goodwill] at h
        have := run_descOut_tail text 'G' ("oodwill".data ++ r) caps (by decide)
        rw [lazyTail_goodwill] at this
        obtain ⟨more, hm⟩ := lazyTail_head text ("Goodwill".data ++ r) caps r
        have h4 : (run text reTail (capture2 ("Goodwill".data ++ r) ⟨r, caps⟩)).head? =
            some e := by simpa using h
        have h5 := head?_append_of_some (m := more) h4
        rw [← hm] at h5
        exact this ▸ h5
      · rw [run_descIn_nil h1 h2 h3] at h
        simp at h


theorem run_descIn_tail_space (text : List Char) (c : Char) (cs : List Char)
    (caps : Nat → List Char) (hc : reSpace c = true) :
    run text (.seq (.group 2 reDescIn) reTail) ⟨c :: cs, caps⟩ = [] := by
  have h1 : ¬ "Apple Pay Top-Up".data <+: (⟨c :: cs, caps⟩ : St).rest := by
    apply not_starts_of_head (a := 'A')
    rintro rfl
    exact absurd hc (by decide)
  have h2 : ¬ "Transfer from".data <+: (⟨c :: cs, caps⟩ : St).rest := by
    apply not_starts_of_head (a := 'T')
    rintro rfl
    exact absurd hc (by decide)
  have h3 : ¬ "Goodwill".data <+: (⟨c :: cs, caps⟩ : St).rest := by
    apply not_starts_of_head (a := 'G')
    rintro rfl
    exact absurd hc (by decide)
  rw [run_group2_seq, run_descIn_nil h1 h2 h3]
  rfl

theorem starRun_greedy_cons {p : Char → Bool} {c : Char} (hp : p c = true) (cs : List Char)
    (caps : Nat → List Char) :
    starRun true p caps (c :: cs) = starRun true p caps cs ++ [⟨c :: cs, caps⟩] := by
  simp [starRun, hp]

theorem starRun_cons_stop {g : Bool} {p : Char → Bool} {c : Char} (hp : ¬ p c = true)
    (cs : List Char) (caps : Nat → List Char) :
    starRun g p caps (c :: cs) = [⟨c :: cs, caps⟩] := by
  simp [starRun, hp]

theorem spaces_descIn_head_descOut (text : List Char) (caps : Nat → List Char) (e : St) :
    ∀ l : List Char,
      ((starRun true reSpace caps l).flatMap
        (run text (.seq (.group 2 reDescIn) reTail))).head? = some e →
      ((starRun true reSpace caps l).flatMap
        (run text (.seq (.group 2 reDescOut) reTail))).head? = some e := by
  intro l
  induction l with
  | nil =>
    intro h
    simp only [starRun, List.flatMap_cons, List.flatMap_nil, List.append_nil] at h ⊢
    exact descIn_head_descOut text _ e h
  | cons c cs ih =>
    intro h
    by_cases hc : reSpace c = true
    · rw [starRun_greedy_cons hc, List.flatMap_append] at h ⊢
      simp only [List.flatMap_cons, List.flatMap_nil, List.append_nil,
        run_descIn_tail_space text c cs caps hc] at h
      exact head?_append_of_some (ih h)
    · rw [starRun_cons_stop hc] at h ⊢
      simp only [List.flatMap_cons, List.flatMap_nil, List.append_nil] at h ⊢
      exact descIn_head_descOut text _ e h

theorem afterDate_in_out (text : List Char) (s e : St)
    (h : (run text (.seq (plus true reSpace) (.seq (.group 2 reDescIn) reTail)) s).head? =
      some e) :
    (run text (.seq (plus true reSpace) (.seq (.group 2 reDescOut) reTail)) s).head? =
      some e := by
  rcases s with ⟨_ | ⟨c, cs⟩, caps⟩
  · rw [run_seq, run_plus_nil] at h
    simp at h
  · rw [run_seq, run_plus_cons] at h ⊢
    by_cases hc : reSpace c = true
    · rw [if_pos hc] at h ⊢
      exact spaces_descIn_head_descOut text caps e cs h
    · rw [if_neg hc] at h
      simp at h

/-- Wherever the inbound pattern matches, the outbound pattern matches too, with the same
captures and the same end. -/
theorem firstMatch_in_out {text pos : List Char} {e : St}
    (h : firstMatch reIn text pos = some e) : firstMatch reOut text pos = some e := by
  simp only [firstMatch, reIn, reOut, rePattern] at h ⊢
  rw [run_seq] at h ⊢
  cases hb : run text .bol ⟨pos, fun _ => []⟩ with
  | nil =>
    rw [hb] at h
    simp at h
  | cons s0 tl =>
    have htl : tl = [] := by
      have : (run text .bol ⟨pos, fun _ => []⟩).length ≤ 1 := by
        simp only [run]
        split <;> simp
      rw [hb] at this
      simpa using this
    subst htl
    rw [hb] at h
    simp only [List.flatMap_cons, List.flatMap_nil, List.append_nil] at h ⊢
    rw [run_seq] at h ⊢
    have hdet : (run text (.group 1 reDate) s0).length ≤ 1 := by
      simp only [run, List.length_map]
      exact det_reDate text s0
    rcases length_le_one_cases hdet with hd | ⟨s1, hd⟩
    · rw [hd] at h
      simp at h
    · rw [hd] at h ⊢
      simp only [List.flatMap_cons, List.flatMap_nil, List.append_nil] at h ⊢
      exact afterDate_in_out text s1 e h


/-! ## Texts of a single line -/

theorem atLineStart_inside {text pre rest : List Char} (ht : text = pre ++ rest)
    (hpre : pre ≠ []) (hnl : '\n' ∉ text) : atLineStart text rest = false := by
  obtain ⟨init, z, rfl⟩ : ∃ init z, pre = init ++ [z] :=
    ⟨pre.dropLast, pre.getLast hpre, (List.dropLast_append_getLast hpre).symm⟩
  have hz : z ≠ '\n' := by
    rintro rfl
    exact hnl (by simp [ht])
  have hlen : text.length - rest.length = init.length + 1 := by
    simp only [ht, List.length_append, List.length_cons, List.length_nil]
    omega
  have hget : text.get? init.length = some z := by
    rw [ht, List.append_assoc, List.get?_eq_getElem?,
      List.getElem?_append_right (Nat.le_refl _)]
    simp
  simp only [atLineStart, hlen, hget]
  simpa using hz

theorem firstMatch_not_atLineStart {desc : Re} {text rest : List Char}
    (h : atLineStart text rest = false) : firstMatch (rePattern desc) text rest = none := by
  simp [firstMatch, rePattern, run_seq, run, h]

theorem findAllFrom_inside {desc : Re} {text : List Char} (hnl : '\n' ∉ text) :
    ∀ (rest pre : List Char) (skip : Nat), text = pre ++ rest → pre ≠ [] →
      findAllFrom (rePattern desc) text skip rest = [] := by
  intro rest
  induction rest with
  | nil =>
    intro pre skip _ _
    cases skip <;> rfl
  | cons c cs ih =>
    intro pre skip ht hpre
    have hnext : text = (pre ++ [c]) ++ cs := by simp [ht]
    cases skip with
    | succ k =>
      simp only [findAllFrom]
      exact ih _ k hnext (by simp)
    | zero =>
      simp only [findAllFrom, firstMatch_not_atLineStart (atLineStart_inside ht hpre hnl)]
      exact ih _ 0 hnext (by simp)

theorem findAll_single_line {desc : Re} (hd : desc.numCap = 0) {text : List Char}
    (hnl : '\n' ∉ text) :
    FindAllStringSubmatch (rePattern desc) text =
      match firstMatch (rePattern desc) text text with
      | some e => [submatches (rePattern desc) text e]
      | none => [] := by
  cases text with
  | nil =>
    have : firstMatch (rePattern desc) [] [] = none := by
      cases h : firstMatch (rePattern desc) [] [] with
      | none => rfl
      | some e =>
        obtain ⟨s, t, hst⟩ := currency_of_match hd h
        simp at hst
    simp [FindAllStringSubmatch, findAllFrom, this]
  | cons c cs =>
    simp only [FindAllStringSubmatch, findAllFrom]
    cases firstMatch (rePattern desc) (c :: cs) (c :: cs) with
    | none => exact findAllFrom_inside hnl cs [c] 0 rfl (by simp)
    | some e =>
      simp only
      rw [findAllFrom_inside hnl cs [c] _ rfl (by simp)]


/-! ## The lazy description takes the first amount -/

theorem head?_flatMap_some {α β : Type} {f : α → List β} {b : β} :
    ∀ l : List α, (l.flatMap f).head? = some b → ∃ x ∈ l, (f x).head? = some b := by
  intro l
  induction l with
  | nil =>
    intro h
    simp at h
  | cons x xs ih =>
    intro h
    rw [List.flatMap_cons] at h
    cases hfx : f x with
    | nil =>
      rw [hfx, List.nil_append] at h
      obtain ⟨y, hy, hb⟩ := ih h
      exact ⟨y, List.mem_cons_of_mem _ hy, hb⟩
    | cons y ys =>
      rw [hfx] at h
      exact ⟨x, List.mem_cons_self _ _, by rw [hfx]; simpa using h⟩

theorem not_tailOccurrence_of_nil {text : List Char} {s : St}
    (h : run text reTail s = []) : ¬ TailOccurrence s.rest := by
  rintro ⟨xs, r, hs, hacc⟩
  obtain ⟨e, he, -⟩ := run_complete text hasBol_reTail hacc s r hs
  rw [h] at he
  simp at he

theorem lazyTail_first {text start : List Char} {caps : Nat → List Char} {e : St} :
    ∀ l : List Char, (lazyTail text start caps l).head? = some e →
      ∃ g1 l2, l = g1 ++ l2 ∧ e ∈ run text reTail (capture2 start ⟨l2, caps⟩) ∧
        (∀ c ∈ g1, reDot c = true) ∧
        ∀ p q, g1 = p ++ q → q ≠ [] → ¬ TailOccurrence (q ++ l2) := by
  intro l
  induction l with
  | nil =>
    intro h
    refine ⟨[], [], rfl, ?_, by simp, ?_⟩
    · have : lazyTail text start caps [] = run text reTail (capture2 start ⟨[], caps⟩) := by
        simp [lazyTail, starRun]
      rw [this] at h
      exact List.mem_of_mem_head? h
    · intro p q hpq hq
      exact absurd (List.append_eq_nil.mp hpq.symm).2 hq
  | cons c cs ih =>
    intro h
    have hhere : (run text reTail (capture2 start ⟨c :: cs, caps⟩)).head? = some e →
        ∃ g1 l2, c :: cs = g1 ++ l2 ∧ e ∈ run text reTail (capture2 start ⟨l2, caps⟩) ∧
          (∀ c ∈ g1, reDot c = true) ∧
          ∀ p q, g1 = p ++ q → q ≠ [] → ¬ TailOccurrence (q ++ l2) := by
      intro h1
      refine ⟨[], c :: cs, rfl, List.mem_of_mem_head? h1, by simp, ?_⟩
      intro p q hpq hq
      exact absurd (List.append_eq_nil.mp hpq.symm).2 hq
    by_cases hc : reDot c = true
    · rw [lazyTail_cons hc] at h
      cases hrun : run text reTail (capture2 start ⟨c :: cs, caps⟩) with
      | cons y ys =>
        apply hhere
        rw [hrun] at h ⊢
        simpa using h
      | nil =>
        rw [hrun, List.nil_append] at h
        obtain ⟨g1, l2, hl, he, hdot, hmin⟩ := ih h
        refine ⟨c :: g1, l2, by simp [hl], he, ?_, ?_⟩
        · intro x hx
          rcases List.mem_cons.mp hx with rfl | hx
          · exact hc
          · exact hdot x hx
        · intro p q hpq hq
          cases p with
          | nil =>
            simp only [List.nil_append] at hpq
            subst hpq
            have := not_tailOccurrence_of_nil hrun
            simpa [capture2, hl] using this
          | cons x p =>
            simp only [List.cons_append, List.cons.injEq] at hpq
            exact hmin p q hpq.2 hq
    · apply hhere
      have : lazyTail text start caps (c :: cs) =
          run text reTail (capture2 start ⟨c :: cs, caps⟩) := by
        simp [lazyTail, starRun, hc]
      rw [this] at h
      exact h


theorem descOut_tail_first {text : List Char} {s e : St}
    (h : (run text (.seq (.group 2 reDescOut) reTail) s).head? = some e) :
    ∃ g v a c, s.rest = g ++ v ++ a ++ c :: 'H' :: 'U' :: 'F' :: e.rest ∧
      g ≠ [] ∧ (∀ x ∈ g, reDot x = true) ∧ Accepts (plus true reSpace) v ∧
      Accepts reAmount a ∧ reSpace c = true ∧
      e.caps = Function.update (Function.update s.caps 2 g) 3 a ∧
      ∀ g1 g2, g = g1 ++ g2 → g1 ≠ [] → g2 ≠ [] →
        ¬ TailOccurrence (g2 ++ v ++ a ++ c :: 'H' :: 'U' :: 'F' :: e.rest) := by
  rcases s with ⟨_ | ⟨c0, cs⟩, caps⟩
  · rw [run_group2_seq, reDescOut, run_plus_nil] at h
    simp at h
  · by_cases hc : reDot c0 = true
    · rw [run_descOut_tail text c0 cs caps hc] at h
      obtain ⟨g1, l2, hl, he, hdot, hmin⟩ := lazyTail_first cs h
      obtain ⟨v, a, c, hrest, hv, ha, hsp, hcaps⟩ := mem_reTail he
      simp only [capture2] at hrest hcaps
      refine ⟨c0 :: g1, v, a, c, ?_, by simp, ?_, hv, ha, hsp, ?_, ?_⟩
      · simp [hl, hrest]
      · intro x hx
        rcases List.mem_cons.mp hx with rfl | hx
        · exact hc
        · exact hdot x hx
      · rw [hcaps]
        have : (c0 :: cs).take ((c0 :: cs).length - l2.length) = c0 :: g1 := by
          rw [hl]
          exact take_consumed (c0 :: g1) l2
        rw [this]
      · intro p q hpq hp hq
        cases p with
        | nil => exact absurd rfl hp
        | cons x p =>
          simp only [List.cons_append, List.cons.injEq] at hpq
          have := hmin p q hpq.2 hq
          rw [hrest] at this
          simpa using this
    · rw [run_group2_seq, reDescOut, run_plus_cons, if_neg hc] at h
      simp at h

/-! ## The longest separator -/

theorem greedy_head {f : St → List St} {p : Char → Bool} {caps : Nat → List Char} {b : St} :
    ∀ l : List Char, ((starRun true p caps l).flatMap f).head? = some b →
      ∃ u y, l = u ++ y ∧ (∀ c ∈ u, p c = true) ∧ (f ⟨y, caps⟩).head? = some b ∧
        ∀ q r, y = q ++ r → q ≠ [] → (∀ c ∈ q, p c = true) → f ⟨r, caps⟩ = [] := by
  intro l
  induction l with
  | nil =>
    intro h
    refine ⟨[], [], rfl, by simp, by simpa [starRun] using h, ?_⟩
    intro q r hqr hq
    exact absurd (List.append_eq_nil.mp hqr.symm).1 hq
  | cons c cs ih =>
    intro h
    by_cases hc : p c = true
    · rw [starRun_greedy_cons hc, List.flatMap_append] at h
      cases hfirst : (starRun true p caps cs).flatMap f with
      | cons x xs =>
        have h1 : ((starRun true p caps cs).flatMap f).head? = some b := by
          rw [hfirst] at h ⊢
          simpa using h
        obtain ⟨u, y, hl, hu, hy, hmax⟩ := ih h1
        refine ⟨c :: u, y, by simp [hl], ?_, hy, hmax⟩
        intro x hx
        rcases List.mem_cons.mp hx with rfl | hx
        · exact hc
        · exact hu x hx
      | nil =>
        rw [hfirst, List.nil_append] at h
        refine ⟨[], c :: cs, rfl, by simp, by simpa using h, ?_⟩
        intro q r hqr hq hp
        cases q with
        | nil => exact absurd rfl hq
        | cons x q =>
          simp only [List.cons_append, List.cons.injEq] at hqr
          have hmem : (⟨r, caps⟩ : St) ∈ starRun true p caps cs :=
            mem_starRun.mpr ⟨q, hqr.2, fun y hy => hp y (List.mem_cons_of_mem _ hy), rfl⟩
          have hall := List.flatMap_eq_nil_iff.mp hfirst
          exact hall _ hmem
    · rw [starRun_cons_stop hc] at h
      refine ⟨[], c :: cs, rfl, by simp, by simpa using h, ?_⟩
      intro q r hqr hq hp
      cases q with
      | nil => exact absurd rfl hq
      | cons x q =>
        simp only [List.cons_append, List.cons.injEq] at hqr
        exact absurd (hqr.1 ▸ hp x (List.mem_cons_self _ _)) hc

theorem hasBol_descOut_tail : (Re.seq (.group 2 reDescOut) reTail).hasBol = false := by
  simp [Re.hasBol, reDescOut, plus, hasBol_reTail]

theorem no_description_of_nil {text : List Char} {s : St}
    (h : run text (.seq (.group 2 reDescOut) reTail) s = []) :
    ∀ g z, g ≠ [] → (∀ x ∈ g, reDot x = true) → s.rest = g ++ z → ¬ TailOccurrence z := by
  rintro g z hg hdot hs ⟨xs, r, rfl, hacc⟩
  have hAcc : Accepts (.seq (.group 2 reDescOut) reTail) (g ++ xs) :=
    ⟨g, xs, rfl, accepts_plus.mpr ⟨hg, hdot⟩, hacc⟩
  obtain ⟨e, he, -⟩ := run_complete text hasBol_descOut_tail hAcc s r (by simp [hs])
  rw [h] at he
  simp at he


theorem firstMatch_out_chosen {text pos : List Char} {e : St}
    (h : firstMatch reOut text pos = some e) :
    ∃ d w g v a c, Chosen pos d w g v a c e.rest ∧
      e.caps 1 = d ∧ e.caps 2 = g ∧ e.caps 3 = a := by
  simp only [firstMatch, reOut, rePattern] at h
  rw [run_seq] at h
  obtain ⟨s0, hs0, h0⟩ := head?_flatMap_some _ h
  rw [run_seq] at h0
  obtain ⟨s1, hs1, h1⟩ := head?_flatMap_some _ h0
  obtain ⟨rfl, -⟩ := mem_run_bol hs0
  obtain ⟨d, hd1, hd2, hd3⟩ := mem_run_group numCap_reDate hs1
  simp only at hd1
  rw [run_seq] at h1
  rcases s1 with ⟨_ | ⟨c0, cs⟩, caps1⟩
  · rw [run_plus_nil] at h1
    simp at h1
  · rw [run_plus_cons] at h1
    by_cases hc0 : reSpace c0 = true
    · rw [if_pos hc0] at h1
      obtain ⟨u, y, hl, hu, hy, hmax⟩ := greedy_head cs h1
      obtain ⟨g, v, a, c, hrest, hg, hdot, hv, ha, hc, hcaps, hmin⟩ := descOut_tail_first hy
      rw [accepts_plus] at hv
      simp only at hrest hcaps hd1 hd3
      refine ⟨d, c0 :: u, g, v, a, c, ⟨⟨?_, hd2, ⟨by simp, ?_⟩, ⟨hg, hdot⟩, hv, ha, hc⟩, ?_, ?_⟩,
        ?_, ?_, ?_⟩
      · rw [hd1, hl, hrest]
        simp
      · intro x hx
        rcases List.mem_cons.mp hx with rfl | hx
        · exact hc0
        · exact hu x hx
      · intro q r hq hqs hqr k z hk hkd hkz
        have hy2 : y = q ++ r := by
          rw [hrest]
          simpa using hqr
        exact no_description_of_nil (hmax q r hy2 hq hqs) k z hk hkd hkz
      · intro g1 g2 hg12 h1 h2
        have := hmin g1 g2 hg12 h1 h2
        simpa using this
      · rw [hcaps, hd3]
        simp [Function.update]
      · rw [hcaps]
        simp [Function.update]
      · rw [hcaps]
        simp [Function.update]
    · rw [if_neg hc0] at h1
      simp at h1


/-! ## The chosen reading is unique -/

theorem span_unique {p : Char → Bool} :
    ∀ (xs ys : List Char) {y z : Char} {r s : List Char}, xs ++ y :: r = ys ++ z :: s →
      (∀ c ∈ xs, p c = true) → (∀ c ∈ ys, p c = true) → p y = false → p z = false →
      xs = ys ∧ y :: r = z :: s := by
  intro xs
  induction xs with
  | nil =>
    intro ys y z r s h _ hys hy _
    cases ys with
    | nil => exact ⟨rfl, by simpa using h⟩
    | cons b ys =>
      simp only [List.nil_append, List.cons_append, List.cons.injEq] at h
      have := hys b (List.mem_cons_self _ _)
      rw [← h.1, hy] at this
      exact Bool.noConfusion this
  | cons a xs ih =>
    intro ys y z r s h hxs hys hy hz
    cases ys with
    | nil =>
      simp only [List.nil_append, List.cons_append, List.cons.injEq] at h
      have := hxs a (List.mem_cons_self _ _)
      rw [h.1, hz] at this
      exact Bool.noConfusion this
    | cons b ys =>
      simp only [List.cons_append, List.cons.injEq] at h
      obtain ⟨h1, h2⟩ := ih ys h.2 (fun c hc => hxs c (List.mem_cons_of_mem _ hc))
        (fun c hc => hys c (List.mem_cons_of_mem _ hc)) hy hz
      exact ⟨by rw [h.1, h1], h2⟩

theorem hasBol_reDate : reDate.hasBol = false := by
  simp [reDate, reMonth, Re.hasBol, hasBol_lit]

theorem date_unique {d e x y : List Char} (hd : Accepts reDate d) (he : Accepts reDate e)
    (h : d ++ x = e ++ y) : d = e := by
  obtain ⟨m, hm, hmx⟩ := run_complete [] hasBol_reDate hd ⟨d ++ x, fun _ => []⟩ x rfl
  obtain ⟨n, hn, hny⟩ := run_complete [] hasBol_reDate he ⟨d ++ x, fun _ => []⟩ y h
  rcases length_le_one_cases (det_reDate [] ⟨d ++ x, fun _ => []⟩) with h0 | ⟨k, hk⟩
  · rw [h0] at hm
    simp at hm
  · rw [hk, List.mem_singleton] at hm hn
    have hxy : x = y := by rw [← hmx, ← hny, hm, hn]
    subst hxy
    exact List.append_cancel_right h

theorem not_reSpace_of_reDigitComma {c : Char} (h : reDigitComma c = true) :
    reSpace c = false := by
  cases hs : reSpace c with
  | false => rfl
  | true =>
    simp only [reSpace, Bool.or_eq_true, beq_iff_eq] at hs
    rcases hs with (((rfl | rfl) | rfl) | rfl) | rfl <;> exact absurd h (by decide)

theorem tailOccurrence_of_shape {v a : List Char} {c : Char} (rest : List Char)
    (hv : v ≠ [] ∧ ∀ x ∈ v, reSpace x = true) (ha : Accepts reAmount a)
    (hc : reSpace c = true) :
    TailOccurrence (v ++ a ++ c :: 'H' :: 'U' :: 'F' :: rest) := by
  refine ⟨v ++ (a ++ (c :: 'H' :: 'U' :: 'F' :: [])), rest, by simp, ?_⟩
  exact ⟨v, a ++ (c :: 'H' :: 'U' :: 'F' :: []), rfl, accepts_plus.mpr hv, a,
    c :: 'H' :: 'U' :: 'F' :: [], rfl, ha, [c], ['H', 'U', 'F'], rfl, ⟨c, rfl, hc⟩,
    accepts_lit.mpr rfl⟩

theorem tail_unique {v a u b : List Char} {c e : Char} {r s : List Char}
    (hv : ∀ x ∈ v, reSpace x = true) (ha : Accepts reAmount a)
    (hu : ∀ x ∈ u, reSpace x = true) (hb : Accepts reAmount b)
    (h : v ++ a ++ c :: 'H' :: 'U' :: 'F' :: r = u ++ b ++ e :: 'H' :: 'U' :: 'F' :: s) :
    a = b := by
  obtain ⟨xs, d1, d2, rfl, hxs, hx, -⟩ := accepts_reAmount ha
  obtain ⟨ys, f1, f2, rfl, hys, hy, -⟩ := accepts_reAmount hb
  cases xs with
  | nil => exact absurd rfl hxs
  | cons x xs =>
    cases ys with
    | nil => exact absurd rfl hys
    | cons y ys =>
      have h1 : v ++ x :: (xs ++ '.' :: d1 :: d2 :: c :: 'H' :: 'U' :: 'F' :: r) =
          u ++ y :: (ys ++ '.' :: f1 :: f2 :: e :: 'H' :: 'U' :: 'F' :: s) := by
        simpa using h
      obtain ⟨-, h2⟩ := span_unique v u h1 hv hu
        (not_reSpace_of_reDigitComma (hx x (List.mem_cons_self _ _)))
        (not_reSpace_of_reDigitComma (hy y (List.mem_cons_self _ _)))
      have h3 : (x :: xs) ++ '.' :: (d1 :: d2 :: c :: 'H' :: 'U' :: 'F' :: r) =
          (y :: ys) ++ '.' :: (f1 :: f2 :: e :: 'H' :: 'U' :: 'F' :: s) := by
        simpa using h2
      obtain ⟨h4, h5⟩ := span_unique (p := reDigitComma) (x :: xs) (y :: ys) h3 hx hy
        (by decide) (by decide)
      simp only [List.cons.injEq, true_and] at h5
      rw [h4, h5.1, h5.2.1]


theorem chosen_unique {t d w g v a : List Char} {c : Char} {rest : List Char}
    {e u k y b : List Char} {f : Char} {more : List Char}
    (h1 : Chosen t d w g v a c rest) (h2 : Chosen t e u k y b f more) :
    d = e ∧ w = u ∧ g = k ∧ a = b := by
  obtain ⟨⟨ht, hd, hw, hg, hv, ha, hc⟩, hsep, hmin⟩ := h1
  obtain ⟨⟨hs, he, hu, hk, hy, hb, hf⟩, hsep2, hmin2⟩ := h2
  have occ1 := tailOccurrence_of_shape rest hv ha hc
  have occ2 := tailOccurrence_of_shape more hy hb hf
  have e0 : d ++ (w ++ (g ++ (v ++ a ++ c :: 'H' :: 'U' :: 'F' :: rest))) =
      e ++ (u ++ (k ++ (y ++ b ++ f :: 'H' :: 'U' :: 'F' :: more))) := by
    have := ht.symm.trans hs
    simpa using this
  have hde : d = e := date_unique hd he e0
  subst hde
  have e1 := List.append_cancel_left e0
  have hwu : w = u := by
    rcases List.append_eq_append_iff.mp e1 with ⟨q, hq1, hq2⟩ | ⟨q, hq1, hq2⟩
    · cases q with
      | nil => simpa using hq1.symm
      | cons x q =>
        have hqs : ∀ z ∈ x :: q, reSpace z = true :=
          fun z hz => hu.2 z (by rw [hq1]; exact List.mem_append_right _ hz)
        exact absurd occ2
          (hsep (x :: q) _ (by simp) hqs (by simpa using hq2) k _ hk.1 hk.2 rfl)
    · cases q with
      | nil => simpa using hq1
      | cons x q =>
        have hqs : ∀ z ∈ x :: q, reSpace z = true :=
          fun z hz => hw.2 z (by rw [hq1]; exact List.mem_append_right _ hz)
        exact absurd occ1
          (hsep2 (x :: q) _ (by simp) hqs (by simpa using hq2) g _ hg.1 hg.2 rfl)
  subst hwu
  have e2 := List.append_cancel_left e1
  have hgk : g = k := by
    rcases List.append_eq_append_iff.mp e2 with ⟨q, hq1, hq2⟩ | ⟨q, hq1, hq2⟩
    · cases q with
      | nil => simpa using hq1.symm
      | cons x q =>
        have := hmin2 g (x :: q) hq1 hg.1 (by simp)
        rw [← hq2] at this
        exact absurd occ1 this
    · cases q with
      | nil => simpa using hq1
      | cons x q =>
        have := hmin k (x :: q) hq1 hk.1 (by simp)
        rw [← hq2] at this
        exact absurd occ2 this
  subst hgk
  have e3 := List.append_cancel_left e2
  exact ⟨rfl, rfl, rfl, tail_unique hv.2 ha hy.2 hb e3⟩

theorem atLineStart_self (t : List Char) : atLineStart t t = true := by
  simp [atLineStart]

theorem hasBol_afterBol :
    (Re.seq (.group 1 reDate)
      (.seq (plus true reSpace) (.seq (.group 2 reDescOut) reTail))).hasBol = false := by
  simp [Re.hasBol, hasBol_reDate, plus, reDescOut, hasBol_reTail]

theorem firstMatch_of_outShape {t d w g v a : List Char} {c : Char} {rest : List Char}
    (h : OutShape t d w g v a c rest) : ∃ e, firstMatch reOut t t = some e := by
  obtain ⟨ht, hd, hw, hg, hv, ha, hc⟩ := h
  obtain ⟨xs, r, hxs, hT⟩ := tailOccurrence_of_shape rest hv ha hc
  have hAcc : Accepts (.seq (.group 1 reDate)
      (.seq (plus true reSpace) (.seq (.group 2 reDescOut) reTail))) (d ++ (w ++ (g ++ xs))) :=
    ⟨d, w ++ (g ++ xs), rfl, hd, w, g ++ xs, rfl, accepts_plus.mpr hw, g, xs, rfl,
      accepts_plus.mpr hg, hT⟩
  obtain ⟨e, he, -⟩ := run_complete t hasBol_afterBol hAcc ⟨t, fun _ => []⟩ r (by
    rw [ht]
    simp only [List.append_assoc]
    rw [← hxs]
    simp)
  have hrun : run t reOut ⟨t, fun _ => []⟩ ≠ [] := by
    intro hnil
    have : e ∈ run t reOut ⟨t, fun _ => []⟩ := by
      rw [reOut, rePattern, run_seq]
      simp only [run, atLineStart_self, if_true, List.flatMap_cons, List.flatMap_nil,
        List.append_nil]
      exact he
    rw [hnil] at this
    simp at this
  cases hh : run t reOut ⟨t, fun _ => []⟩ with
  | nil => exact absurd hh hrun
  | cons x xs => exact ⟨x, by simp [firstMatch, hh]⟩


/-! ## Expense records of a single-line text -/

theorem outRecords_single_line {t : String} (hnl : '\n' ∉ t.data) :
    outRecords t =
      match firstMatch reOut t.data t.data with
      | some e =>
        [⟨0, ⟨e.caps 1⟩, "Expense", ⟨'-' :: removeCommas (e.caps 3)⟩, ⟨TrimSpace (e.caps 2)⟩⟩]
      | none => [] := by
  rw [outRecords, reOut, findAll_single_line numCap_reDescOut hnl, ← reOut]
  cases firstMatch reOut t.data t.data with
  | none => rfl
  | some e => simp [reOut, submatches_rePattern _ numCap_reDescOut, expenseOf]

theorem expense_mem_iff {t : String} {r : Expense} :
    (r ∈ parseRevolutStatement t ∧ r.Category = "Expense") ↔ r ∈ outRecords t := by
  constructor
  · rintro ⟨hr, hc⟩
    rcases mem_parse hr with h | h
    · exact h
    · rw [category_inRecords h] at hc
      exact absurd hc (by decide)
  · intro h
    exact ⟨by rw [parseRevolutStatement]; exact List.mem_append_left _ h,
      category_outRecords h⟩

theorem chosen_of_outRecord {t : String} {r : Expense} (hnl : '\n' ∉ t.data)
    (h : r ∈ outRecords t) :
    ∃ d w g v a c rest, Chosen t.data d w g v a c rest ∧ r = expenseRecord d w g a := by
  rw [outRecords_single_line hnl] at h
  cases hfm : firstMatch reOut t.data t.data with
  | none =>
    rw [hfm] at h
    simp at h
  | some e =>
    rw [hfm] at h
    simp only [List.mem_singleton] at h
    obtain ⟨d, w, g, v, a, c, hch, h1, h2, h3⟩ := firstMatch_out_chosen hfm
    refine ⟨d, w, g, v, a, c, e.rest, hch, ?_⟩
    rw [h, h1, h2, h3, expenseRecord, TrimSpace_append_left hch.1.2.2.1.2]

theorem outRecord_of_outShape {t : String} {d w g v a : List Char} {c : Char}
    {rest : List Char} (hnl : '\n' ∉ t.data) (h : OutShape t.data d w g v a c rest) :
    ∃ r, outRecords t = [r] := by
  obtain ⟨e, he⟩ := firstMatch_of_outShape h
  rw [outRecords_single_line hnl, he]
  exact ⟨_, rfl⟩

theorem outRecords_of_chosen {t : String} {d w g v a : List Char} {c : Char}
    {rest : List Char} (hnl : '\n' ∉ t.data) (h : Chosen t.data d w g v a c rest) :
    outRecords t = [expenseRecord d w g a] := by
  obtain ⟨r, hr⟩ := outRecord_of_outShape hnl h.1
  obtain ⟨e, u, k, y, b, f, more, hch, hrec⟩ :=
    chosen_of_outRecord (r := r) hnl (by rw [hr]; exact List.mem_singleton_self _)
  obtain ⟨rfl, rfl, rfl, rfl⟩ := chosen_unique h hch
  rw [hr, hrec]


/-! ## The claims -/

set_option maxRecDepth 1000000

/-- C1 (evaluation of the code on the scenario of the specification): the two-line text
yields three records, not two.  The inbound line `Apple Pay Top-Up` is matched by the
"Money out" pattern as well, so it is appended once as an Expense of `-20000.00` and once
as an Income of `20000.00`. -/
theorem scenario_yields_three_records :
    parseRevolutStatement
      "Jan 5, 2024    Grocery Store    15,500.00 HUF\nJan 6, 2024    Apple Pay Top-Up    20,000.00 HUF" =
    [⟨0, "Jan 5, 2024", "Expense", "-15500.00", "Grocery Store"⟩,
     ⟨0, "Jan 6, 2024", "Expense", "-20000.00", "Apple Pay Top-Up"⟩,
     ⟨0, "Jan 6, 2024", "Income", "20000.00", "Apple Pay Top-Up"⟩] := by
  decide

/-- C2, counterexample: on the line `Jan 5, 2024 X ,.00 HUF` the amount capture is `,.00`,
the record's amount is `-.00`, and that does not match `-?\d+\.\d{2}` (no digit before the
point). -/
theorem amount_without_integer_digits :
    ∃ r ∈ parseRevolutStatement "Jan 5, 2024 X ,.00 HUF",
      r.Amount = "-.00" ∧ fullMatch reAmountSpec r.Amount.data = false := by
  decide

/-- C2, amended: the amount of every record matches `-?\d*\.\d{2}` in full (an optional
leading `-`, any number of decimal digits, a point, exactly two decimal digits) and
holds no comma. -/
theorem amount_matches_loose_pattern (t : String) (r : Expense)
    (h : r ∈ parseRevolutStatement t) :
    fullMatch reAmountLoose r.Amount.data = true ∧ ',' ∉ r.Amount.data := by
  have key : ∃ sign xs d1 d2, (sign = ['-'] ∨ sign = []) ∧
      (∀ c ∈ xs, reDigitComma c = true) ∧ reDigit d1 = true ∧ reDigit d2 = true ∧
      r.Amount.data = sign ++ removeCommas (xs ++ ['.', d1, d2]) := by
    rcases mem_parse h with h | h
    · obtain ⟨d, g, a, -, -, ha, rfl⟩ := mem_outRecords h
      obtain ⟨xs, d1, d2, rfl, -, hx, h1, h2⟩ := accepts_reAmount ha
      exact ⟨['-'], xs, d1, d2, Or.inl rfl, hx, h1, h2, rfl⟩
    · obtain ⟨d, g, a, -, -, ha, rfl⟩ := mem_inRecords h
      obtain ⟨xs, d1, d2, rfl, -, hx, h1, h2⟩ := accepts_reAmount ha
      exact ⟨[], xs, d1, d2, Or.inr rfl, hx, h1, h2, rfl⟩
  obtain ⟨sign, xs, d1, d2, hs, hx, h1, h2, heq⟩ := key
  constructor
  · rw [heq, removeCommas_amount h1 h2]
    exact fullMatch_of_accepts hasBol_reAmountLoose
      (accepts_reAmountLoose sign _ d1 d2 hs (mem_removeCommas hx) h1 h2)
  · rw [heq]
    intro hc
    rcases List.mem_append.mp hc with hc | hc
    · rcases hs with rfl | rfl
      · simp at hc
      · simp at hc
    · rcases amount_chars hx h1 h2 hc with h3 | h3
      · exact absurd h3 (by decide)
      · exact absurd h3 (by decide)

/-- C2, witness: the amended invariant at the record of the line `Jan 5, 2024 X ,.00 HUF`. -/
theorem amount_matches_loose_pattern_witness :
    (⟨0, "Jan 5, 2024", "Expense", "-.00", "X"⟩ : Expense) ∈
        parseRevolutStatement "Jan 5, 2024 X ,.00 HUF" ∧
      fullMatch reAmountLoose "-.00".data = true ∧ ',' ∉ "-.00".data :=
  ⟨by decide, amount_matches_loose_pattern "Jan 5, 2024 X ,.00 HUF"
    ⟨0, "Jan 5, 2024", "Expense", "-.00", "X"⟩ (by decide)⟩


/-- C4, counterexample: the line with the description `Random Refund` does produce a
record, because the "Money out" pattern accepts any description. -/
theorem random_refund_is_recorded :
    parseRevolutStatement "Jan 6, 2024    Random Refund    20,000.00 HUF" ≠ [] := by
  decide

/-- C4, amended: the line with the description `Random Refund` produces no Income record;
its only record is the Expense of `-20000.00`.  More generally a record whose description
neither begins with `Apple Pay Top-Up` or `Transfer from` nor equals `Goodwill` is never
an Income record: it is an Expense. -/
theorem unlisted_description_is_expense :
    parseRevolutStatement "Jan 6, 2024    Random Refund    20,000.00 HUF" =
        [⟨0, "Jan 6, 2024", "Expense", "-20000.00", "Random Refund"⟩] ∧
      ∀ (t : String) (r : Expense), r ∈ parseRevolutStatement t →
        ¬ "Apple Pay Top-Up".data <+: r.Description.data →
        ¬ "Transfer from".data <+: r.Description.data →
        r.Description ≠ "Goodwill" → r.Category = "Expense" := by
  refine ⟨by decide, ?_⟩
  intro t r h h1 h2 h3
  rcases mem_parse h with h | h
  · exact category_outRecords h
  · rcases income_description h with h4 | h4 | h4
    · exact absurd h4 h1
    · exact absurd h4 h2
    · exact absurd h4 h3

/-- C4, witness: the general part at the record of the `Random Refund` line. -/
theorem unlisted_description_is_expense_witness :
    (⟨0, "Jan 6, 2024", "Expense", "-20000.00", "Random Refund"⟩ : Expense).Category =
      "Expense" :=
  unlisted_description_is_expense.2 "Jan 6, 2024    Random Refund    20,000.00 HUF"
    ⟨0, "Jan 6, 2024", "Expense", "-20000.00", "Random Refund"⟩ (by decide) (by decide)
    (by decide) (by decide)

/-- C5, counterexample: a transaction split across two lines at a separator is still
matched, since the separators `\s` and `\s+` accept a line feed. -/
theorem split_line_is_recorded :
    parseRevolutStatement "Jan 5, 2024 Grocery Store\n15,500.00 HUF" ≠ [] := by
  decide

/-- C5, amended: the description and the amount of a record never hold a line feed
(neither `.` nor the amount classes accept one), but the white-space separators of a match
may be line feeds: the text `Jan 5, 2024 Grocery Store\n15,500.00 HUF` yields the Expense
record of `Grocery Store`. -/
theorem captures_hold_no_line_feed :
    parseRevolutStatement "Jan 5, 2024 Grocery Store\n15,500.00 HUF" =
        [⟨0, "Jan 5, 2024", "Expense", "-15500.00", "Grocery Store"⟩] ∧
      ∀ (t : String) (r : Expense), r ∈ parseRevolutStatement t →
        '\n' ∉ r.Description.data ∧ '\n' ∉ r.Amount.data := by
  refine ⟨by decide, ?_⟩
  intro t r h
  rcases mem_parse h with h | h
  · obtain ⟨d, g, a, -, hg, ha, rfl⟩ := mem_outRecords h
    obtain ⟨xs, d1, d2, rfl, -, hx, h1, h2⟩ := accepts_reAmount ha
    rw [reDescOut, accepts_plus] at hg
    constructor
    · intro hc
      exact absurd (hg.2 _ (mem_TrimSpace hc)) (by decide)
    · intro hc
      rcases List.mem_cons.mp hc with hc | hc
      · exact absurd hc (by decide)
      · rcases amount_chars hx h1 h2 hc with h3 | h3
        · exact absurd h3 (by decide)
        · exact absurd h3 (by decide)
  · obtain ⟨d, g, a, -, hg, ha, rfl⟩ := mem_inRecords h
    obtain ⟨xs, d1, d2, rfl, -, hx, h1, h2⟩ := accepts_reAmount ha
    constructor
    · intro hc
      have hc := mem_TrimSpace hc
      rcases accepts_reDescIn hg with ⟨v, rfl, hv⟩ | ⟨v, rfl, hv⟩ | rfl
      · rcases List.mem_append.mp hc with hc | hc
        · exact absurd hc (by decide)
        · exact absurd (hv _ hc) (by decide)
      · rcases List.mem_append.mp hc with hc | hc
        · exact absurd hc (by decide)
        · exact absurd (hv _ hc) (by decide)
      · exact absurd hc (by decide)
    · intro hc
      rcases amount_chars hx h1 h2 hc with h3 | h3
      · exact absurd h3 (by decide)
      · exact absurd h3 (by decide)

/-- C5, witness: the general part at the record of the split transaction. -/
theorem captures_hold_no_line_feed_witness :
    '\n' ∉ "Grocery Store".data ∧ '\n' ∉ "-15500.00".data :=
  captures_hold_no_line_feed.2 "Jan 5, 2024 Grocery Store\n15,500.00 HUF"
    ⟨0, "Jan 5, 2024", "Expense", "-15500.00", "Grocery Store"⟩ (by decide)


/-- C6: in every output, an Expense record has an amount that begins with `-`, an Income
record has a non-empty amount that begins with neither `-` nor `+`, and every record
carries one of these two labels. -/
theorem sign_follows_category (t : String) (r : Expense)
    (h : r ∈ parseRevolutStatement t) :
    (r.Category = "Expense" → r.Amount.data.head? = some '-') ∧
    (r.Category = "Income" →
      r.Amount.data ≠ [] ∧ r.Amount.data.head? ≠ some '-' ∧ r.Amount.data.head? ≠ some '+') ∧
    (r.Category = "Expense" ∨ r.Category = "Income") := by
  rcases mem_parse h with h | h
  · obtain ⟨d, g, a, -, -, -, rfl⟩ := mem_outRecords h
    exact ⟨fun _ => rfl,
      fun hc => absurd (show ("Expense" : String) = "Income" from hc) (by decide), Or.inl rfl⟩
  · obtain ⟨d, g, a, -, -, ha, rfl⟩ := mem_inRecords h
    obtain ⟨xs, d1, d2, rfl, -, hx, h1, h2⟩ := accepts_reAmount ha
    refine ⟨fun hc => absurd (show ("Income" : String) = "Expense" from hc) (by decide),
      fun _ => ?_, Or.inr rfl⟩
    have hne : removeCommas (xs ++ ['.', d1, d2]) ≠ [] := by
      rw [removeCommas_amount h1 h2]
      simp
    have hhead : ∀ c, (removeCommas (xs ++ ['.', d1, d2])).head? = some c →
        reDigit c = true ∨ c = '.' :=
      fun c hc => amount_chars hx h1 h2 (List.mem_of_mem_head? hc)
    refine ⟨hne, ?_, ?_⟩
    · intro hc
      rcases hhead _ hc with h3 | h3
      · exact absurd h3 (by decide)
      · exact absurd h3 (by decide)
    · intro hc
      rcases hhead _ hc with h3 | h3
      · exact absurd h3 (by decide)
      · exact absurd h3 (by decide)

/-- C6, witness: the sign invariant at the Income record of an inbound line. -/
theorem sign_follows_category_witness :
    (⟨0, "Jan 6, 2024", "Income", "5.00", "Goodwill"⟩ : Expense) ∈
        parseRevolutStatement "Jan 6, 2024 Goodwill 5.00 HUF" ∧
      (("Income" : String) = "Expense" → "5.00".data.head? = some '-') ∧
      (("Income" : String) = "Income" →
        "5.00".data ≠ [] ∧ "5.00".data.head? ≠ some '-' ∧ "5.00".data.head? ≠ some '+') ∧
      (("Income" : String) = "Expense" ∨ ("Income" : String) = "Income") :=
  ⟨by decide, sign_follows_category "Jan 6, 2024 Goodwill 5.00 HUF"
    ⟨0, "Jan 6, 2024", "Income", "5.00", "Goodwill"⟩ (by decide)⟩

/-- C7: the output is the Expense records of the outbound pass followed by the Income
records of the inbound pass, so no Income record comes before an Expense record; an
inbound line placed before an outbound line still has its Income record last. -/
theorem expenses_precede_incomes :
    (∀ t : String, ∃ es is : List Expense,
      parseRevolutStatement t = es ++ is ∧ es = outRecords t ∧ is = inRecords t ∧
      (∀ r ∈ es, r.Category = "Expense") ∧ (∀ r ∈ is, r.Category = "Income")) ∧
    (∀ t : String, (parseRevolutStatement t).Pairwise
      fun a b => ¬ (a.Category = "Income" ∧ b.Category = "Expense")) ∧
    parseRevolutStatement "Jan 6, 2024 Goodwill 5.00 HUF\nJan 5, 2024 Shop 1.00 HUF" =
      [⟨0, "Jan 6, 2024", "Expense", "-5.00", "Goodwill"⟩,
       ⟨0, "Jan 5, 2024", "Expense", "-1.00", "Shop"⟩,
       ⟨0, "Jan 6, 2024", "Income", "5.00", "Goodwill"⟩] := by
  refine ⟨fun t => ⟨outRecords t, inRecords t, rfl, rfl, rfl, ?_, ?_⟩, fun t => ?_, by decide⟩
  · exact fun r hr => category_outRecords hr
  · exact fun r hr => category_inRecords hr
  · rw [parseRevolutStatement, List.pairwise_append]
    refine ⟨?_, ?_, ?_⟩
    · apply List.pairwise_of_forall_mem_list
      rintro a ha b - ⟨h1, -⟩
      rw [category_outRecords ha] at h1
      exact absurd h1 (by decide)
    · apply List.pairwise_of_forall_mem_list
      rintro a - b hb ⟨-, h2⟩
      rw [category_inRecords hb] at h2
      exact absurd h2 (by decide)
    · rintro a ha b - ⟨h1, -⟩
      rw [category_outRecords ha] at h1
      exact absurd h1 (by decide)

/-- C8: the description of every Income record begins with `Apple Pay Top-Up`, or begins
with `Transfer from`, or is exactly `Goodwill`. -/
theorem income_description_is_listed (t : String) (r : Expense)
    (h : r ∈ parseRevolutStatement t) (hc : r.Category = "Income") :
    "Apple Pay Top-Up".data <+: r.Description.data ∨
      "Transfer from".data <+: r.Description.data ∨ r.Description = "Goodwill" := by
  rcases mem_parse h with h | h
  · rw [category_outRecords h] at hc
    exact absurd hc (by decide)
  · exact income_description h

/-- C8, witness: the Income record of a `Transfer from` line. -/
theorem income_description_is_listed_witness :
    "Apple Pay Top-Up".data <+: "Transfer from Anna".data ∨
      "Transfer from".data <+: "Transfer from Anna".data ∨
      ("Transfer from Anna" : String) = "Goodwill" :=
  income_description_is_listed "Jan 6, 2024 Transfer from Anna  7,000.00 HUF"
    ⟨0, "Jan 6, 2024", "Income", "7000.00", "Transfer from Anna"⟩ (by decide) (by decide)

/-- C9: the parser is a total function, and on every text in which the currency token
`HUF` does not occur (the empty text among them) it returns the empty sequence. -/
theorem no_currency_no_record (t : String) (h : ¬ "HUF".data <:+: t.data) :
    parseRevolutStatement t = [] := by
  simp [parseRevolutStatement, outRecords, inRecords, FindAllStringSubmatch, reOut, reIn,
    findAllFrom_no_currency numCap_reDescOut _ _ 0 h,
    findAllFrom_no_currency numCap_reDescIn _ _ 0 h]

/-- C9, witness: the empty text. -/
theorem no_currency_no_record_witness :
    ¬ "HUF".data <:+: "".data ∧ parseRevolutStatement "" = [] :=
  ⟨by decide, no_currency_no_record "" (by decide)⟩


/-- C10: on a text without a line feed, an Income record never comes alone: the output is
then exactly two records, an Expense record with the same date and description and the
amount prefixed by `-`, followed by the Income record. -/
theorem inbound_line_counted_twice (t : String) (hnl : '\n' ∉ t.data) (r : Expense)
    (hr : r ∈ parseRevolutStatement t) (hc : r.Category = "Income") :
    parseRevolutStatement t =
      [⟨0, r.Date, "Expense", "-" ++ r.Amount, r.Description⟩, r] := by
  have hin : r ∈ inRecords t := by
    rcases mem_parse hr with h | h
    · rw [category_outRecords h] at hc
      exact absurd hc (by decide)
    · exact h
  have hIn := findAll_single_line numCap_reDescIn hnl
  have hOut := findAll_single_line numCap_reDescOut hnl
  cases hfm : firstMatch reIn t.data t.data with
  | none =>
    rw [inRecords, reIn, hIn, ← reIn, hfm] at hin
    simp at hin
  | some e =>
    have hfo := firstMatch_in_out hfm
    have hi : inRecords t =
        [⟨0, ⟨e.caps 1⟩, "Income", ⟨removeCommas (e.caps 3)⟩, ⟨TrimSpace (e.caps 2)⟩⟩] := by
      rw [inRecords, reIn, hIn, ← reIn, hfm]
      simp [reIn, submatches_rePattern _ numCap_reDescIn, incomeOf]
    have ho : outRecords t =
        [⟨0, ⟨e.caps 1⟩, "Expense", ⟨'-' :: removeCommas (e.caps 3)⟩,
          ⟨TrimSpace (e.caps 2)⟩⟩] := by
      rw [outRecords, reOut, hOut, ← reOut, hfo]
      simp [reOut, submatches_rePattern _ numCap_reDescOut, expenseOf]
    rw [hi, List.mem_singleton] at hin
    subst hin
    rw [parseRevolutStatement, hi, ho]
    rfl

/-- C10, witness: a single `Goodwill` line. -/
theorem inbound_line_counted_twice_witness :
    parseRevolutStatement "Jan 6, 2024 Goodwill 5.00 HUF" =
      [⟨0, "Jan 6, 2024", "Expense", "-" ++ "5.00", "Goodwill"⟩,
       ⟨0, "Jan 6, 2024", "Income", "5.00", "Goodwill"⟩] :=
  inbound_line_counted_twice "Jan 6, 2024 Goodwill 5.00 HUF" (by decide)
    ⟨0, "Jan 6, 2024", "Income", "5.00", "Goodwill"⟩ (by decide) (by decide)


/-- C3, counterexample: the line `Jan 5, 2024 A 1.00 HUF B 2.00 HUF` ends with the
occurrence ` 2.00 HUF` of an amount followed by the currency token, the last one on the
line, but the Expense record takes the earlier amount `1.00` and the description `A`. -/
theorem expense_takes_earlier_amount :
    "Jan 5, 2024 A 1.00 HUF B 2.00 HUF" = "Jan 5, 2024 A 1.00 HUF B" ++ " 2.00 HUF" ∧
      fullMatch reTail " 2.00 HUF".data = true ∧
      parseRevolutStatement "Jan 5, 2024 A 1.00 HUF B 2.00 HUF" =
        [⟨0, "Jan 5, 2024", "Expense", "-1.00", "A"⟩] := by
  decide

/-- C3, amended: a text without a line feed that can be read in the outbound shape yields
exactly one Expense record, and the backtracking order of the pattern fixes it, not the
last occurrence.  Among the readings of the line, the separating white space after the
date is the longest that still leaves a non-empty description followed by an occurrence of
white space, an amount, a white-space character and `HUF`; after that separator the
description is the shortest one, so that no such occurrence begins inside it after its
first character.  That reading is unique; the record's amount is `-` followed by its
amount without commas, and the record's description is everything between the date and
the occurrence, trimmed.  For `Jan 5, 2024  Coffee Shop 100.00  99.50 HUF` the description
is `Coffee Shop 100.00` and the amount `-99.50`; for `Jan 5, 2024   1.00 HUF 2.00 HUF` the
description is `1.00 HUF` and the amount `-2.00`; for `Jan 5, 2024   1.00 HUF` the
description is empty and the amount `-1.00`. -/
theorem expense_follows_backtracking_order :
    parseRevolutStatement "Jan 5, 2024  Coffee Shop 100.00  99.50 HUF" =
        [⟨0, "Jan 5, 2024", "Expense", "-99.50", "Coffee Shop 100.00"⟩] ∧
    parseRevolutStatement "Jan 5, 2024   1.00 HUF 2.00 HUF" =
        [⟨0, "Jan 5, 2024", "Expense", "-2.00", "1.00 HUF"⟩] ∧
    parseRevolutStatement "Jan 5, 2024   1.00 HUF" =
        [⟨0, "Jan 5, 2024", "Expense", "-1.00", ""⟩] ∧
    (∀ (t : String) (d w g v a : List Char) (c : Char) (rest : List Char),
      '\n' ∉ t.data → OutShape t.data d w g v a c rest →
      ∃ r, ∀ x, (x ∈ parseRevolutStatement t ∧ x.Category = "Expense") ↔ x = r) ∧
    (∀ (t : String) (r : Expense), '\n' ∉ t.data → r ∈ parseRevolutStatement t →
      r.Category = "Expense" →
      ∃ d w g v a c rest, Chosen t.data d w g v a c rest ∧ r = expenseRecord d w g a) ∧
    (∀ (t : String) (d w g v a : List Char) (c : Char) (rest : List Char),
      '\n' ∉ t.data → Chosen t.data d w g v a c rest →
      ∀ x, (x ∈ parseRevolutStatement t ∧ x.Category = "Expense") ↔
        x = expenseRecord d w g a) := by
  refine ⟨by decide, by decide, by decide, ?_, ?_, ?_⟩
  · intro t d w g v a c rest hnl hshape
    obtain ⟨r, hr⟩ := outRecord_of_outShape hnl hshape
    exact ⟨r, fun x => by rw [expense_mem_iff, hr, List.mem_singleton]⟩
  · intro t r hnl hr hc
    exact chosen_of_outRecord hnl (expense_mem_iff.mp ⟨hr, hc⟩)
  · intro t d w g v a c rest hnl hch x
    rw [expense_mem_iff, outRecords_of_chosen hnl hch, List.mem_singleton]

/-- C3, witness: on the line `Jan 5, 2024   1.00 HUF 2.00 HUF` the record of `-2.00` has a
chosen reading, and that reading fixes the Expense records of the output. -/
theorem expense_follows_backtracking_order_witness :
    ∃ d w g v a c rest,
      Chosen "Jan 5, 2024   1.00 HUF 2.00 HUF".data d w g v a c rest ∧
      (⟨0, "Jan 5, 2024", "Expense", "-2.00", "1.00 HUF"⟩ : Expense) = expenseRecord d w g a ∧
      ∀ x, (x ∈ parseRevolutStatement "Jan 5, 2024   1.00 HUF 2.00 HUF" ∧
        x.Category = "Expense") ↔ x = expenseRecord d w g a := by
  obtain ⟨d, w, g, v, a, c, rest, hch, hr⟩ :=
    expense_follows_backtracking_order.2.2.2.2.1 "Jan 5, 2024   1.00 HUF 2.00 HUF"
      ⟨0, "Jan 5, 2024", "Expense", "-2.00", "1.00 HUF"⟩ (by decide) (by decide) (by decide)
  exact ⟨d, w, g, v, a, c, rest, hch, hr,
    expense_follows_backtracking_order.2.2.2.2.2 "Jan 5, 2024   1.00 HUF 2.00 HUF"
      d w g v a c rest (by decide) hch⟩

end ExpenseTracker
